import Mathlib

/-!
Shallow embedding of the chunked-file codec of `pkg/split/split.go`
(package `split` of qrfiletransfer).

Bytes are modelled as `List Nat` (each element a byte value); file paths are
byte lists as well.  The filesystem visible to one split/merge invocation is
an association list from path to content; `os.WriteFile`/`os.Create` never
fail in the model (the claims under study concern the codec logic, not I/O
fault injection).  SHA-256 (`crypto/sha256`, an external library) is
abstracted as a parameter `hashFn : Bytes → Bytes`; the code only ever
feeds it byte streams and compares outputs.  `time.Now().Unix()` is a
parameter `now : Int`.
-/

/-- Byte strings and file paths: lists of byte values. -/
abbrev Bytes := List Nat

/-- Truncate or right-pad `bs` to exactly `n` elements with `fill`.
Models Go's `copy` of a slice into a fixed-size `[n]byte` array
(the array is zero-initialised, `copy` writes `min n bs.length` bytes). -/
def truncPad (n : Nat) (fill : Nat) (bs : Bytes) : Bytes :=
  bs.take n ++ List.replicate (n - bs.length) fill

theorem truncPad_length (n fill : Nat) (bs : Bytes) :
    (truncPad n fill bs).length = n := by
  simp [truncPad]
  omega

theorem truncPad_of_length_eq {n : Nat} {bs : Bytes} (fill : Nat)
    (h : bs.length = n) : truncPad n fill bs = bs := by
  simp [truncPad, h, List.take_of_length_le (le_of_eq h)]

/-- Big-endian byte serialisation of a natural number into `w` bytes,
most significant byte first.  Models `encoding/binary` big-endian writes
of fixed-width unsigned integers (the value wraps modulo `256^w`, exactly
as a Go integer cast to the fixed-width type does). -/
def beBytes : Nat → Nat → Bytes
  | 0, _ => []
  | w + 1, n => n / 256 ^ w % 256 :: beBytes w n

/-- Big-endian value of a byte string (models `encoding/binary` reads). -/
def beVal (bs : Bytes) : Nat :=
  bs.foldl (fun a b => a * 256 + b) 0

theorem beBytes_length (w n : Nat) : (beBytes w n).length = w := by
  induction w generalizing n with
  | zero => rfl
  | succ w ih => simp [beBytes, ih]

theorem beVal_foldl_init (bs : Bytes) (i : Nat) :
    bs.foldl (fun a b => a * 256 + b) i =
      i * 256 ^ bs.length + bs.foldl (fun a b => a * 256 + b) 0 := by
  induction bs generalizing i with
  | nil => simp
  | cons b rest ih =>
    simp only [List.foldl_cons, List.length_cons]
    rw [ih (i * 256 + b), ih (0 * 256 + b)]
    ring

theorem beVal_cons (b : Nat) (bs : Bytes) :
    beVal (b :: bs) = b * 256 ^ bs.length + beVal bs := by
  simp only [beVal, List.foldl_cons]
  rw [beVal_foldl_init bs (0 * 256 + b)]
  have hz : 0 * 256 + b = b := by omega
  rw [hz]

theorem beVal_beBytes (w n : Nat) : beVal (beBytes w n) = n % 256 ^ w := by
  induction w generalizing n with
  | zero => simp [beBytes, beVal, Nat.mod_one]
  | succ w ih =>
    rw [beBytes, beVal_cons, beBytes_length, ih]
    have h256 : (256 : Nat) ^ (w + 1) = 256 ^ w * 256 := by ring
    rw [h256, Nat.mod_mul]
    ring

/-- Big-endian encoding of a Go `int64` (two's complement):
the value reduced modulo `2^64` as an unsigned 8-byte quantity. -/
def beInt64 (s : Int) : Bytes :=
  beBytes 8 (s.emod (2 ^ 64)).toNat

/-- Decode 8 big-endian bytes as a Go `int64` (two's complement). -/
def decInt64 (bs : Bytes) : Int :=
  let n := beVal bs
  if n < 2 ^ 63 then (n : Int) else (n : Int) - 2 ^ 64

theorem decInt64_beInt64 {s : Int} (h1 : -(2 ^ 63) ≤ s) (h2 : s < 2 ^ 63) :
    decInt64 (beInt64 s) = s := by
  rw [decInt64, beInt64, beVal_beBytes]
  have hlo : 0 ≤ s.emod (2 ^ 64) := Int.emod_nonneg s (by norm_num)
  have hhi : s.emod (2 ^ 64) < 2 ^ 64 := Int.emod_lt_of_pos s (by norm_num)
  have hse : s.emod (2 ^ 64) = s ∨ s.emod (2 ^ 64) = s + 2 ^ 64 := by
    rcases le_or_lt 0 s with hs | hs
    · exact Or.inl (Int.emod_eq_of_lt hs (by omega))
    · right
      have h3 : (s + 2 ^ 64) % (2 ^ 64) = s % (2 ^ 64) := by
        have := Int.add_mul_emod_self_left (a := s) (b := (2 : Int) ^ 64) (c := 1)
        rwa [mul_one] at this
      show s % (2 ^ 64) = s + 2 ^ 64
      rw [← h3]
      exact Int.emod_eq_of_lt (by omega) (by omega)
  have e1 : (256 : Nat) ^ 8 = 18446744073709551616 := by norm_num
  have e2 : (2 : Int) ^ 64 = 18446744073709551616 := by norm_num
  have e3 : (2 : Int) ^ 63 = 9223372036854775808 := by norm_num
  have e4 : (2 : Nat) ^ 63 = 9223372036854775808 := by norm_num
  rcases hse with hse | hse <;> (split <;> omega)

/-- Trim byte value `c` from both ends of a byte string.
Models `bytes.Trim(b, cutset)` with a single-byte cutset. -/
def trimByte (c : Nat) (bs : Bytes) : Bytes :=
  ((bs.dropWhile (· = c)).reverse.dropWhile (· = c)).reverse

theorem dropWhile_eq_self_of_ne {c : Nat} {bs : Bytes} (h : c ∉ bs) :
    bs.dropWhile (· = c) = bs := by
  cases bs with
  | nil => rfl
  | cons b rest =>
    have hb : ¬ (b = c) := fun hb => h (by simp [hb])
    simp [List.dropWhile_cons, hb]

theorem trimByte_of_not_mem {c : Nat} {bs : Bytes} (h : c ∉ bs) :
    trimByte c bs = bs := by
  have h' : c ∉ bs.reverse := by simpa using h
  rw [trimByte, dropWhile_eq_self_of_ne h, dropWhile_eq_self_of_ne h',
    List.reverse_reverse]

theorem dropWhile_replicate_append (c : Nat) (k : Nat) (bs : Bytes) :
    (List.replicate k c ++ bs).dropWhile (· = c) = bs.dropWhile (· = c) := by
  induction k with
  | zero => simp
  | succ k ih => simp [List.replicate_succ, List.dropWhile_cons, ih]

theorem trimByte_append_replicate (c : Nat) (bs : Bytes) (k : Nat)
    (h : c ∉ bs) : trimByte c (bs ++ List.replicate k c) = bs := by
  have h' : c ∉ bs.reverse := by simpa using h
  cases bs with
  | nil =>
    rw [trimByte, List.nil_append]
    rw [show (List.replicate k c).dropWhile (· = c) = ([] : Bytes) from by
      have hd := dropWhile_replicate_append c k []
      simp only [List.append_nil, List.dropWhile_nil] at hd
      exact hd]
    rfl
  | cons b rest =>
    rw [trimByte]
    have hb : ¬ (b = c) := fun hb => h (by simp [hb])
    have h1 : ((b :: rest) ++ List.replicate k c).dropWhile (· = c)
        = (b :: rest) ++ List.replicate k c := by
      simp [List.dropWhile_cons, hb]
    rw [h1, List.reverse_append, List.reverse_replicate,
      dropWhile_replicate_append, dropWhile_eq_self_of_ne h',
      List.reverse_reverse]

/-! ### Path and string helpers (models of `strings` / `path/filepath` calls) -/

/-- Byte value of `/`. -/
def slashB : Nat := 47

/-- Byte value of `.`. -/
def dotB : Nat := 46

/-- The byte string `"part"`. -/
def partStr : Bytes := [112, 97, 114, 116]

/-- The byte string `"tmp"`. -/
def tmpStr : Bytes := [116, 109, 112]

/-- The byte string `".part"`. -/
def dotPartStr : Bytes := [46, 112, 97, 114, 116]

/-- The byte string `".tmp"`. -/
def dotTmpStr : Bytes := [46, 116, 109, 112]

/-- Models `strings.Replace(s, old, new, 1)`: replace the first (leftmost)
occurrence of `pat` in `s` by `rep`; return `s` unchanged when `pat` does
not occur (for nonempty `pat`). -/
def replaceFirst (pat rep : Bytes) : Bytes → Bytes
  | [] => []
  | c :: rest =>
    if pat.isPrefixOf (c :: rest) then rep ++ (c :: rest).drop pat.length
    else c :: replaceFirst pat rep rest

/-- Models `filepath.Join(dir, name)` for a nonempty, cleaned `dir` with no
trailing slash. -/
def joinPath (dir name : Bytes) : Bytes := dir ++ slashB :: name

/-- Index (from the start) of the last occurrence of byte `c`, if any. -/
def lastIdxOf (c : Nat) (bs : Bytes) : Option Nat :=
  match bs.reverse.findIdx? (· = c) with
  | none => none
  | some j => some (bs.length - 1 - j)

/-- Models `filepath.Dir(p)` for a cleaned path that contains a slash:
everything before the last slash. -/
def dirOf (p : Bytes) : Bytes :=
  match lastIdxOf slashB p with
  | none => [dotB]
  | some i => p.take i

/-- Models `filepath.Base(p)` for a cleaned path: everything after the last
slash, or `p` itself when there is none. -/
def baseOf (p : Bytes) : Bytes :=
  match lastIdxOf slashB p with
  | none => p
  | some i => p.drop (i + 1)

/-- Models `strings.TrimSuffix(b, filepath.Ext(b))` on a slash-free name:
everything before the last dot, or `b` unchanged when it has no dot. -/
def trimExt (b : Bytes) : Bytes :=
  if dotB ∈ b then ((b.reverse.dropWhile (· ≠ dotB)).drop 1).reverse else b

theorem dropWhile_reverse_dot (t : Bytes) : ∀ (c : Bytes), dotB ∉ c →
    (c.reverse ++ dotB :: t).dropWhile (· ≠ dotB) = dotB :: t := by
  intro c
  induction c using List.reverseRecOn with
  | nil =>
    intro _
    simp [List.dropWhile_cons]
  | append_singleton c x ih =>
    intro h
    have hx : x ≠ dotB := fun hx => h (by simp [hx])
    have hc : dotB ∉ c := fun hc => h (by simp [hc])
    rw [List.reverse_append, List.reverse_singleton]
    simp only [List.cons_append, List.dropWhile_cons]
    rw [if_pos (by simpa using hx)]
    exact ih hc

theorem trimExt_append_dot {a c : Bytes} (h : dotB ∉ c) :
    trimExt (a ++ dotB :: c) = a := by
  rw [trimExt, if_pos (by simp)]
  have h1 : (a ++ dotB :: c).reverse = c.reverse ++ dotB :: a.reverse := by
    simp
  rw [h1, dropWhile_reverse_dot a.reverse c h]
  simp

theorem trimExt_of_not_mem {b : Bytes} (h : dotB ∉ b) : trimExt b = b := by
  rw [trimExt, if_neg h]

/-- Decimal digit characters of `n`, most significant first
(models `fmt.Sprintf("%d", n)` for a nonnegative value).  The recursion is
fuelled so that the definition evaluates by kernel reduction; `n` itself
always suffices as fuel (`decDigits_eq` recovers the natural recursion). -/
def decDigitsAux : Nat → Nat → Bytes
  | 0, _ => []
  | fuel + 1, n =>
    if n < 10 then [48 + n] else decDigitsAux fuel (n / 10) ++ [48 + n % 10]

def decDigits (n : Nat) : Bytes :=
  decDigitsAux (n + 1) n

theorem decDigitsAux_congr : ∀ (f1 f2 n : Nat), n < f1 → n < f2 →
    decDigitsAux f1 n = decDigitsAux f2 n := by
  intro f1
  induction f1 with
  | zero =>
    intro f2 n h1 _
    omega
  | succ f1 ih =>
    intro f2 n h1 h2
    cases f2 with
    | zero => omega
    | succ f2 =>
      rw [decDigitsAux, decDigitsAux]
      by_cases hn : n < 10
      · rw [if_pos hn, if_pos hn]
      · rw [if_neg hn, if_neg hn]
        have hd : n / 10 < n := Nat.div_lt_self (by omega) (by omega)
        rw [ih f2 (n / 10) (by omega) (by omega)]

theorem decDigits_eq (n : Nat) :
    decDigits n = if n < 10 then [48 + n]
      else decDigits (n / 10) ++ [48 + n % 10] := by
  rw [decDigits, decDigits, decDigitsAux]
  by_cases hn : n < 10
  · rw [if_pos hn, if_pos hn]
  · rw [if_neg hn, if_neg hn]
    have hd : n / 10 < n := Nat.div_lt_self (by omega) (by omega)
    rw [decDigitsAux_congr n (n / 10 + 1) (n / 10) (by omega) (by omega)]

/-- Models `fmt.Sprintf("%04d", n)`: the decimal digits of `n` left-padded
with `'0'` to at least four characters. -/
def pad4 (n : Nat) : Bytes :=
  List.replicate (4 - (decDigits n).length) 48 ++ decDigits n

theorem decDigits_lt (n : Nat) (hn : n < 10000) :
    pad4 n = [48 + n / 1000 % 10, 48 + n / 100 % 10, 48 + n / 10 % 10,
      48 + n % 10] := by
  rcases Nat.lt_or_ge n 10 with h1 | h1
  · rw [pad4, decDigits_eq, if_pos h1]
    simp only [List.length_singleton]
    have e1 : n / 1000 % 10 = 0 := by omega
    have e2 : n / 100 % 10 = 0 := by omega
    have e3 : n / 10 % 10 = 0 := by omega
    have e4 : n % 10 = n := by omega
    rw [e1, e2, e3, e4]
    rfl
  rcases Nat.lt_or_ge n 100 with h2 | h2
  · rw [pad4, decDigits_eq, if_neg (by omega), decDigits_eq, if_pos (by omega)]
    simp only [List.length_append, List.length_singleton]
    have e1 : n / 1000 % 10 = 0 := by omega
    have e2 : n / 100 % 10 = 0 := by omega
    have e3 : n / 10 % 10 = n / 10 := by omega
    rw [e1, e2, e3]
    rfl
  rcases Nat.lt_or_ge n 1000 with h3 | h3
  · rw [pad4, decDigits_eq, if_neg (by omega), decDigits_eq, if_neg (by omega),
      decDigits_eq, if_pos (by omega)]
    simp only [List.length_append, List.length_singleton]
    have e1 : n / 1000 % 10 = 0 := by omega
    have e2 : n / 100 % 10 = n / 100 := by omega
    have e3 : n / 10 / 10 = n / 100 := by omega
    have e4 : n / 10 % 10 = n / 10 % 10 := rfl
    rw [e1, e2]
    simp only [List.cons_append, List.nil_append, e3]
    rfl
  · rw [pad4, decDigits_eq, if_neg (by omega), decDigits_eq, if_neg (by omega),
      decDigits_eq, if_neg (by omega), decDigits_eq, if_pos (by omega)]
    simp only [List.length_append, List.length_singleton]
    have e2 : n / 10 / 10 = n / 100 := by omega
    have e3 : n / 10 / 10 / 10 = n / 1000 := by omega
    have e5 : n / 100 / 10 = n / 1000 := by omega
    have e4 : n / 1000 % 10 = n / 1000 := by omega
    simp only [List.cons_append, List.nil_append, e2, e3, e5, e4]
    rfl

/-! ### Fragment naming (SplitFile line 100, checkFiles regex line 423) -/

/-- The chunk file name written for read index `i`:
`fmt.Sprintf("%s_%04d.part", stem, i)` where `stem` is the source base name
with its extension trimmed. -/
def fragName (stem : Bytes) (i : Nat) : Bytes :=
  stem ++ 95 :: (pad4 i ++ dotPartStr)

/-- ASCII decimal digit test (`\d` of the Go regexp). -/
def isDigitB (c : Nat) : Bool := decide (48 ≤ c ∧ c ≤ 57)

/-- Models matching a directory entry name against the anchored regexp
`_(\d{4})\.part$` and parsing the captured group with `fmt.Sscanf("%d")`
(checkFiles lines 423-442).  The pattern is anchored at the end and has
fixed length, so only the last ten bytes decide the match. -/
def parseFragIdx (name : Bytes) : Option Nat :=
  if 10 ≤ name.length then
    match name.drop (name.length - 10) with
    | u :: d1 :: d2 :: d3 :: d4 :: rest =>
      if u = 95 ∧ rest = dotPartStr ∧ isDigitB d1 ∧ isDigitB d2 ∧
          isDigitB d3 ∧ isDigitB d4 then
        some ((((d1 - 48) * 10 + (d2 - 48)) * 10 + (d3 - 48)) * 10 + (d4 - 48))
      else none
    | _ => none
  else none

theorem pad4_length {i : Nat} (h : i < 10000) : (pad4 i).length = 4 := by
  rw [decDigits_lt i h]
  rfl

theorem isDigitB_mod10 (y : Nat) : isDigitB (48 + y % 10) = true := by
  rw [isDigitB]
  simp only [decide_eq_true_eq]
  omega

theorem parseFragIdx_fragName (stem : Bytes) {i : Nat} (h : i < 10000) :
    parseFragIdx (fragName stem i) = some i := by
  have hlen : (fragName stem i).length = stem.length + 10 := by
    simp [fragName, dotPartStr, pad4_length h]
  have hdrop : (fragName stem i).drop ((fragName stem i).length - 10)
      = 95 :: (pad4 i ++ dotPartStr) := by
    rw [hlen]
    have h2 : stem.length + 10 - 10 = stem.length := by omega
    rw [h2, fragName, List.drop_left]
  rw [parseFragIdx, if_pos (by omega), hdrop, decDigits_lt i h]
  simp only [List.cons_append, List.nil_append]
  simp only [isDigitB_mod10, dotPartStr]
  simp only [and_true, true_and, and_self, if_true, eq_self_iff_true]
  congr 1
  omega

/-! ### Metadata record and its binary codec -/

/-- Mirror of the Go struct `metadata` (split.go lines 38-44):
`Hash [32]byte`, `Total uint32`, `Size int64`, `Time int64`,
`Name [46]byte`.  Fixed-width fields are modelled as unbounded
`Nat`/`Int`/`Bytes` with the width enforced at the codec
(`encodeMeta` truncates/wraps exactly as storing into the Go struct and
serialising it does). -/
structure metadata where
  Hash : Bytes
  Total : Nat
  Size : Int
  Time : Int
  Name : Bytes
deriving DecidableEq

/-- Well-formedness: the field values fit the Go struct's fixed widths. -/
def metadata.WF (m : metadata) : Prop :=
  m.Hash.length = 32 ∧ m.Total < 2 ^ 32 ∧
  -(2 ^ 63) ≤ m.Size ∧ m.Size < 2 ^ 63 ∧
  -(2 ^ 63) ≤ m.Time ∧ m.Time < 2 ^ 63 ∧
  m.Name.length = 46

instance (m : metadata) : Decidable m.WF := by
  rw [metadata.WF]
  infer_instance

/-- `binary.Write(buf, binary.BigEndian, meta)`: the fixed 98-byte layout
`[0:32)=Hash, [32:36)=Total, [36:44)=Size, [44:52)=Time, [52:98)=Name`,
big-endian, no padding (injectMetadata lines 370-373). -/
def encodeMeta (m : metadata) : Bytes :=
  truncPad 32 0 m.Hash ++ beBytes 4 m.Total ++ beInt64 m.Size ++
    beInt64 m.Time ++ truncPad 46 0 m.Name

/-- `binary.Read(f, binary.BigEndian, meta)` (extractMetadata line 406):
reads exactly 98 bytes and reconstructs the record; fails when fewer are
available. -/
def decodeMeta (bs : Bytes) : Option metadata :=
  if 98 ≤ bs.length then
    some { Hash := bs.take 32
         , Total := beVal ((bs.drop 32).take 4)
         , Size := decInt64 ((bs.drop 36).take 8)
         , Time := decInt64 ((bs.drop 44).take 8)
         , Name := (bs.drop 52).take 46 }
  else none

theorem encodeMeta_length (m : metadata) : (encodeMeta m).length = 98 := by
  simp [encodeMeta, truncPad_length, beBytes_length, beInt64, beBytes_length]

theorem decodeMeta_encodeMeta {m : metadata} (hm : m.WF) (rest : Bytes) :
    decodeMeta (encodeMeta m ++ rest) = some m := by
  obtain ⟨hh, ht, hs1, hs2, ht1, ht2, hn⟩ := hm
  have hlen : (encodeMeta m ++ rest).length = 98 + rest.length := by
    simp [encodeMeta_length]
  rw [decodeMeta, if_pos (by omega)]
  have hH := truncPad_of_length_eq (n := 32) 0 hh
  have hN := truncPad_of_length_eq (n := 46) 0 hn
  have e32 : (encodeMeta m ++ rest) =
      truncPad 32 0 m.Hash ++ (beBytes 4 m.Total ++ (beInt64 m.Size ++
        (beInt64 m.Time ++ (truncPad 46 0 m.Name ++ rest)))) := by
    simp [encodeMeta, List.append_assoc]
  have l1 : (truncPad 32 0 m.Hash).length = 32 := truncPad_length _ _ _
  have l2 : (beBytes 4 m.Total).length = 4 := beBytes_length _ _
  have l3 : (beInt64 m.Size).length = 8 := beBytes_length _ _
  have l4 : (beInt64 m.Time).length = 8 := beBytes_length _ _
  have hHash : (encodeMeta m ++ rest).take 32 = m.Hash := by
    rw [e32, List.take_left' l1, hH]
  have hd32 : (encodeMeta m ++ rest).drop 32 =
      beBytes 4 m.Total ++ (beInt64 m.Size ++
        (beInt64 m.Time ++ (truncPad 46 0 m.Name ++ rest))) := by
    rw [e32, List.drop_left' l1]
  have hTotal : ((encodeMeta m ++ rest).drop 32).take 4 = beBytes 4 m.Total := by
    rw [hd32, List.take_left' l2]
  have e36 : (encodeMeta m ++ rest) =
      (truncPad 32 0 m.Hash ++ beBytes 4 m.Total) ++ (beInt64 m.Size ++
        (beInt64 m.Time ++ (truncPad 46 0 m.Name ++ rest))) := by
    simp [encodeMeta, List.append_assoc]
  have hd36 : (encodeMeta m ++ rest).drop 36 =
      beInt64 m.Size ++ (beInt64 m.Time ++ (truncPad 46 0 m.Name ++ rest)) := by
    rw [e36, List.drop_left' (by simp [l1, l2])]
  have hSize : ((encodeMeta m ++ rest).drop 36).take 8 = beInt64 m.Size := by
    rw [hd36, List.take_left' l3]
  have e44 : (encodeMeta m ++ rest) =
      (truncPad 32 0 m.Hash ++ beBytes 4 m.Total ++ beInt64 m.Size) ++
        (beInt64 m.Time ++ (truncPad 46 0 m.Name ++ rest)) := by
    simp [encodeMeta, List.append_assoc]
  have hd44 : (encodeMeta m ++ rest).drop 44 =
      beInt64 m.Time ++ (truncPad 46 0 m.Name ++ rest) := by
    rw [e44, List.drop_left' (by simp [l1, l2, l3])]
  have hTime : ((encodeMeta m ++ rest).drop 44).take 8 = beInt64 m.Time := by
    rw [hd44, List.take_left' l4]
  have e52 : (encodeMeta m ++ rest) =
      (truncPad 32 0 m.Hash ++ beBytes 4 m.Total ++ beInt64 m.Size ++
        beInt64 m.Time) ++ (truncPad 46 0 m.Name ++ rest) := by
    simp [encodeMeta, List.append_assoc]
  have hd52 : (encodeMeta m ++ rest).drop 52 = truncPad 46 0 m.Name ++ rest := by
    rw [e52, List.drop_left' (by simp [l1, l2, l3, l4])]
  have hName : ((encodeMeta m ++ rest).drop 52).take 46 = m.Name := by
    rw [hd52, List.take_left' (truncPad_length _ _ _), hN]
  rw [hHash, hTotal, hSize, hTime, hName]
  rw [beVal_beBytes]
  rw [decInt64_beInt64 hs1 hs2, decInt64_beInt64 ht1 ht2]
  have : m.Total % 256 ^ 4 = m.Total := Nat.mod_eq_of_lt (by norm_num; omega)
  rw [this]

theorem decodeMeta_short {bs : Bytes} (h : bs.length < 98) :
    decodeMeta bs = none := by
  rw [decodeMeta, if_neg (by omega)]

/-! ### The read/write chunking loop -/

/-- Consecutive `size`-byte slices of `content` (the last one shorter when
`size` does not divide the length).  Models the `file.Read(buf)` loop of
SplitFile (lines 97-124): each full read yields one chunk file; a regular
file serves full buffers until the remainder. -/
def chunkifyAux (size : Nat) : Nat → Bytes → List Bytes
  | 0, _ => []
  | fuel + 1, content =>
    if content = [] ∨ size = 0 then []
    else content.take size :: chunkifyAux size fuel (content.drop size)

def chunkify (size : Nat) (content : Bytes) : List Bytes :=
  chunkifyAux size content.length content

theorem chunkifyAux_nil (size fuel : Nat) : chunkifyAux size fuel [] = [] := by
  cases fuel with
  | zero => rfl
  | succ fuel => rw [chunkifyAux, if_pos (Or.inl rfl)]

theorem chunkifyAux_congr (size : Nat) : ∀ (f1 : Nat) {f2 : Nat}
    (content : Bytes), content.length ≤ f1 → content.length ≤ f2 →
    chunkifyAux size f1 content = chunkifyAux size f2 content := by
  intro f1
  induction f1 with
  | zero =>
    intro f2 content h1 _
    have h0 : content = [] := List.length_eq_zero.mp (by omega)
    rw [h0, chunkifyAux_nil, chunkifyAux_nil]
  | succ f1 ih =>
    intro f2 content h1 h2
    rcases List.eq_nil_or_concat content with h0 | _
    · rw [h0, chunkifyAux_nil, chunkifyAux_nil]
    · have hne : content ≠ [] := by
        rename_i hcc
        obtain ⟨l, a, hl⟩ := hcc
        rw [hl]
        simp
      have hlp : 0 < content.length := List.length_pos.mpr hne
      cases f2 with
      | zero => omega
      | succ f2 =>
        rw [chunkifyAux, chunkifyAux]
        by_cases hz : size = 0
        · rw [if_pos (Or.inr hz), if_pos (Or.inr hz)]
        · rw [if_neg (by push_neg; exact ⟨hne, hz⟩),
            if_neg (by push_neg; exact ⟨hne, hz⟩)]
          have hd : (content.drop size).length ≤ f1 := by
            simp only [List.length_drop]
            omega
          have hd2 : (content.drop size).length ≤ f2 := by
            simp only [List.length_drop]
            omega
          rw [ih (content.drop size) hd hd2]

theorem chunkify_eq (size : Nat) (content : Bytes) :
    chunkify size content = if content = [] ∨ size = 0 then []
      else content.take size :: chunkify size (content.drop size) := by
  rw [chunkify, chunkify]
  rcases List.eq_nil_or_concat content with h0 | _
  · rw [h0, chunkifyAux_nil, if_pos (Or.inl rfl)]
  · have hne : content ≠ [] := by
      rename_i hcc
      obtain ⟨l, a, hl⟩ := hcc
      rw [hl]
      simp
    have hlp : 0 < content.length := List.length_pos.mpr hne
    obtain ⟨m, hm⟩ : ∃ m, content.length = m + 1 := ⟨content.length - 1, by omega⟩
    rw [hm, chunkifyAux]
    by_cases hz : size = 0
    · rw [if_pos (Or.inr hz), if_pos (Or.inr hz)]
    · rw [if_neg (by push_neg; exact ⟨hne, hz⟩),
        if_neg (by push_neg; exact ⟨hne, hz⟩)]
      have hd : (content.drop size).length ≤ m := by
        simp only [List.length_drop]
        omega
      rw [chunkifyAux_congr size m (content.drop size) hd (le_refl _)]

theorem chunkify_flatten (size : Nat) (hs : 0 < size) (content : Bytes) :
    (chunkify size content).flatten = content := by
  rw [chunkify_eq]
  by_cases h : content = [] ∨ size = 0
  · rw [if_pos h]
    rcases h with h | h
    · simp [h]
    · omega
  · rw [if_neg h]
    push_neg at h
    have hpos : 0 < content.length := List.length_pos.mpr h.1
    have ih := chunkify_flatten size hs (content.drop size)
    simp [ih]
termination_by content.length
decreasing_by
  simp only [List.length_drop]
  omega

theorem chunkify_length (size : Nat) (hs : 0 < size) (content : Bytes) :
    (chunkify size content).length = (content.length + size - 1) / size := by
  rw [chunkify_eq]
  by_cases h : content = [] ∨ size = 0
  · rw [if_pos h]
    rcases h with h | h
    · subst h
      simp only [List.length_nil, List.length_eq_zero]
      symm
      exact Nat.div_eq_of_lt (by omega)
    · omega
  · rw [if_neg h]
    push_neg at h
    have hlen : 0 < content.length := List.length_pos.mpr h.1
    have ih := chunkify_length size hs (content.drop size)
    simp only [List.length_cons, ih, List.length_drop]
    rcases le_or_lt content.length size with hc | hc
    · have h1 : content.length - size = 0 := by omega
      rw [h1]
      have h2 : (0 + size - 1) / size = 0 := Nat.div_eq_of_lt (by omega)
      rw [h2]
      have h3 : content.length + size - 1 = (content.length - 1) + size := by
        omega
      rw [h3, Nat.add_div_right _ hs]
      have h4 : (content.length - 1) / size = 0 := Nat.div_eq_of_lt (by omega)
      rw [h4]
    · have h2 : content.length - size + size - 1 = content.length - 1 := by
        omega
      have h3 : content.length + size - 1 = (content.length - 1) + size := by
        omega
      rw [h2, h3, Nat.add_div_right _ hs]
termination_by content.length
decreasing_by
  simp only [List.length_drop]
  omega

/-- The number of chunk files the writer produces is never more than the
requested chunk count (the buffer is one byte larger than the even share,
so `ceil(L / (⌊L/C⌋ + 1)) ≤ C`). -/
theorem chunkify_count_le (L C : Nat) (hC : 0 < C) :
    (L + (L / C + 1) - 1) / (L / C + 1) ≤ C := by
  have hs : 0 < L / C + 1 := Nat.succ_pos _
  rw [Nat.div_le_iff_le_mul_add_pred hs]
  have e := Nat.div_add_mod L C
  have hlt : L % C < C := Nat.mod_lt _ hC
  have key : L ≤ (L / C + 1) * C := by
    calc L = C * (L / C) + L % C := e.symm
    _ ≤ C * (L / C) + C := Nat.add_le_add_left (le_of_lt hlt) _
    _ = (L / C + 1) * C := by ring
  omega

/-! ### Filesystem model -/

/-- The directory tree visible to one invocation: an association list from
full path to file content (paths unique by construction of `FS.write`). -/
abbrev FS := List (Bytes × Bytes)

/-- `os.WriteFile` / `os.Create` followed by writes: (over)write the file
at path `p` with content `c`.  Creation never fails in the model. -/
def FS.write (fs : FS) (p c : Bytes) : FS :=
  fs.filter (fun e => e.1 ≠ p) ++ [(p, c)]

/-- `os.Open` + read of a whole file: the content at path `p`, if present. -/
def FS.read (fs : FS) (p : Bytes) : Option Bytes :=
  (fs.find? (fun e => e.1 = p)).map Prod.snd

/-- `os.Remove`. -/
def FS.remove (fs : FS) (p : Bytes) : FS :=
  fs.filter (fun e => e.1 ≠ p)

/-- A directory entry as `os.ReadDir` reports it. -/
structure DirEntry where
  name : Bytes
  isDir : Bool
deriving DecidableEq

/-- The name of `p` relative to directory `dir` when `p` lies directly in
`dir`.  Deeper paths denote entries of subdirectories; `checkFiles` skips
directories (`e.IsDir()`), so the model omits them from the listing. -/
def stripDir (dir p : Bytes) : Option Bytes :=
  if (dir ++ [slashB]).isPrefixOf p then
    let rest := p.drop (dir.length + 1)
    if rest ≠ [] ∧ slashB ∉ rest then some rest else none
  else none

/-- The raw (unsorted) entry listing of `dir` derived from the store, in
store order; regular files only (see `stripDir`). -/
def rawEntries (fs : FS) (dir : Bytes) : List DirEntry :=
  fs.filterMap (fun e => (stripDir dir e.1).map (fun n => ⟨n, false⟩))

/-- Lexicographic byte-string comparison (the filename order of
`os.ReadDir`). -/
def bytesLe : Bytes → Bytes → Bool
  | [], _ => true
  | _ :: _, [] => false
  | a :: as, b :: bs => if a < b then true else if a = b then bytesLe as bs else false

/-- `os.ReadDir` returns entries sorted by filename.  Two entries of one
directory never share a name, so the tie branch on `isDir` is never
exercised on a real listing; it only makes the comparison a total order on
the model type. -/
def entryLe (a b : DirEntry) : Bool :=
  if a.name = b.name then decide (a.isDir ≤ b.isDir) else bytesLe a.name b.name

/-- The sorted listing `os.ReadDir` hands to `checkFiles`. -/
def readDirSort (entries : List DirEntry) : List DirEntry :=
  entries.insertionSort (fun a b => entryLe a b = true)

/-- Mirror of the Go struct `parsedChunk` (split.go lines 332-336). -/
structure parsedChunk where
  first : Bool
  name : Bytes
  index : Nat
deriving DecidableEq

/-- The comparison `sort.Slice` uses in `checkFiles` (line 449). -/
def chunkLe (a b : parsedChunk) : Bool := decide (a.index ≤ b.index)

/-- Models `checkFiles` (lines 415-453) applied to the raw entries of a
directory: `os.ReadDir` sorts entries by name; each regular file matching
`_(\d{4})\.part$` becomes a `parsedChunk` (index parsed from the four
digits, `first` iff the index is 0, `name` the joined path); the chunks are
then sorted ascending by index.  `sort.Slice` is unspecified on equal keys;
the model uses a stable sort — equal indices cannot occur in the fragment
sets a split produces, and no claim depends on the tie order. -/
def entryChunk (dir : Bytes) (e : DirEntry) : Option parsedChunk :=
  if e.isDir then none
  else match parseFragIdx e.name with
    | some idx => some ⟨idx == 0, joinPath dir e.name, idx⟩
    | none => none

def checkFiles (dir : Bytes) (entries : List DirEntry) : List parsedChunk :=
  ((readDirSort entries).filterMap (entryChunk dir)).insertionSort
    (fun a b => chunkLe a b = true)

/-! ### Generic value splitter/joiner (SplitData / MergeData) -/

/-- Models `SplitData` (lines 240-288) after the gob encoding step:
`encodedData` stands for the gob-encoded bytes of a non-nil value (gob
encoding of a non-nil value is never empty), and `aLen` for the length of
the caller-supplied output slice.  Returns the byte ranges stored into the
slice. -/
def SplitData (encodedData : Bytes) (aLen chunks : Nat) :
    Except String (List Bytes) :=
  if chunks < 2 then .error "chunks must be at least 2"
  else if aLen ≠ chunks then .error ("output slice length must be " ++ toString chunks)
  else
    let dataLength := encodedData.length
    let partSize0 := dataLength / chunks
    let partSize := if partSize0 = 0 ∧ dataLength > 0 then 1 else partSize0
    .ok ((List.range chunks).map (fun i =>
      let start := i * partSize
      let e1 := start + partSize
      let e2 := if i = chunks - 1 ∨ e1 > dataLength then dataLength else e1
      if start ≥ dataLength then []
      else (encodedData.drop start).take (e2 - start)))

/-- Models `MergeData` (lines 298-329) up to the gob decoding step: checks,
concatenates the chunks in the order given, and returns the combined bytes
handed to `gob.Decode` (every chunk in the model is a byte slice, so the
type-assertion branch cannot fire; the output pointer is non-nil). -/
def MergeData (a : List Bytes) : Except String Bytes :=
  if a.length = 0 then .error "no chunks provided"
  else
    let combined := a.flatten
    if combined.length = 0 then .error "no data to decode"
    else .ok combined

/-! ### SplitFile -/

/-- The full path of the chunk file written for read index `i`
(SplitFile lines 100-106): the joined path, with the first occurrence of
`"part"` replaced by `"tmp"` for index 0. -/
def chunkPath (outDir stem : Bytes) (i : Nat) : Bytes :=
  if i = 0 then replaceFirst partStr tmpStr (joinPath outDir (fragName stem 0))
  else joinPath outDir (fragName stem i)

/-- The write loop of SplitFile: chunk `i` gets piece `i` of the content. -/
def splitWrites (fs : FS) (outDir stem : Bytes) : Nat → List Bytes → FS
  | _, [] => fs
  | i, p :: rest =>
    splitWrites (fs.write (chunkPath outDir stem i) p) outDir stem (i + 1) rest

/-- Models `injectMetadata` (lines 341-391).  The source chunk is opened
first; `os.Create` then truncates the destination, so when the two paths
coincide the copy reads zero bytes (the open source handle sees the
truncated file). -/
def injectMetadata (fs : FS) (srcPath : Bytes) (meta : metadata) :
    Except String FS :=
  match fs.read srcPath with
  | none => .error "failed to open source chunk file"
  | some _ =>
    let dstName := joinPath (dirOf srcPath) (trimExt (baseOf srcPath) ++ dotPartStr)
    let fs1 := fs.write dstName []
    let copied := (fs1.read srcPath).getD []
    let fs2 := fs1.write dstName (encodeMeta meta ++ copied)
    .ok (fs2.remove srcPath)

/-- Models `SplitFile` (lines 65-125) as a function of the pre-state `fs`:
`content` and `nameBase` are the opened source file's bytes and base name,
`outDir` the (cleaned, nonempty, no-trailing-slash) output directory,
`hashFn` the SHA-256 oracle, `now` the current Unix time.  `os.MkdirAll`
and the chunk writes never fail in the model.  When the source is empty no
chunk is written, `firstChunk` stays `""`, and the final `injectMetadata`
fails on `os.Open("")` — the model returns that error branch directly. -/
def SplitFile (hashFn : Bytes → Bytes) (now : Int) (fs : FS)
    (content nameBase outDir : Bytes) (chunks : Nat) : Except String FS :=
  if chunks < 2 then .error "chunks must be at least 2"
  else
    let chunkSize := content.length / chunks + 1
    let stem := trimExt nameBase
    let pieces := chunkify chunkSize content
    let meta : metadata :=
      { Total := chunks % 2 ^ 32
      , Time := now
      , Size := (content.length : Int)
      , Name := truncPad 46 0 nameBase
      , Hash := hashFn content }
    let fs1 := splitWrites fs outDir stem 0 pieces
    if pieces.isEmpty then .error "failed to open source chunk file"
    else injectMetadata fs1 (chunkPath outDir stem 0) meta

/-! ### MergeFile -/

/-- The copy loop of MergeFile (lines 186-212): stream each chunk into the
output file — the first chunk's read cursor advanced past the 98-byte
header (`binary.Size(meta) = 98`) — while feeding the same bytes to the
hash.  Returns the final store, the accumulated hash input, and an error
message when a chunk cannot be opened. -/
def copyLoop (fs : FS) (outPath : Bytes) (hashAcc : Bytes) :
    List parsedChunk → FS × Bytes × Option String
  | [] => (fs, hashAcc, none)
  | c :: rest =>
    match fs.read c.name with
    | none => (fs, hashAcc, some "failed to open chunk file")
    | some raw =>
      let data := if c.first then raw.drop 98 else raw
      let cur := (fs.read outPath).getD []
      copyLoop (fs.write outPath (cur ++ data)) outPath (hashAcc ++ data) rest

/-- The cleanup loop of MergeFile (lines 220-224). -/
def removeAll (fs : FS) : List Bytes → FS
  | [] => fs
  | p :: rest => removeAll (fs.remove p) rest

/-- Models `MergeFile` (lines 136-229) on the directory store: discovery,
metadata extraction from the first chunk, output creation under the
recovered name (`bytes.Trim(meta.Name[:], "\x00")`), the copy loop, the
hash comparison, and chunk removal on success only.  The result is the
post-state paired with `none` on success or the error message. -/
def MergeFile (hashFn : Bytes → Bytes) (fs : FS) (inDir : Bytes) :
    FS × Option String :=
  let chunks := checkFiles inDir (rawEntries fs inDir)
  if chunks.isEmpty then
    (fs, some "no chunk files found in the specified directory")
  else
    match chunks.find? (fun c => c.first) with
    | none => (fs, some "first chunk (index 0) not found")
    | some c0 =>
      match fs.read c0.name with
      | none => (fs, some "failed to extract metadata")
      | some raw0 =>
        match decodeMeta raw0 with
        | none => (fs, some "failed to extract metadata")
        | some meta =>
          let outputFileName := trimByte 0 meta.Name
          let outPath := joinPath inDir outputFileName
          let fs1 := fs.write outPath []
          match copyLoop fs1 outPath [] chunks with
          | (fs2, _, some e) => (fs2, some e)
          | (fs2, hashAcc, none) =>
            if hashFn hashAcc = meta.Hash then
              (removeAll fs2 (chunks.map (fun c => c.name)), none)
            else (fs2, some "hash mismatch: file not reconstructed properly")

/-! ### Store lemmas -/

theorem FS.read_cons (e : Bytes × Bytes) (fs : FS) (q : Bytes) :
    FS.read (e :: fs) q = if e.1 = q then some e.2 else fs.read q := by
  by_cases h : e.1 = q
  · rw [FS.read, List.find?_cons_of_pos _ (by simpa using h), if_pos h]
    rfl
  · rw [FS.read, List.find?_cons_of_neg _ (by simpa using h), if_neg h]
    rfl

theorem FS.write_cons (e : Bytes × Bytes) (fs : FS) (p c : Bytes) :
    FS.write (e :: fs) p c =
      if e.1 = p then FS.write fs p c else e :: FS.write fs p c := by
  by_cases h : e.1 = p
  · simp [FS.write, List.filter_cons, h]
  · simp [FS.write, List.filter_cons, h]

theorem FS.read_write (fs : FS) (p c q : Bytes) :
    (fs.write p c).read q = if q = p then some c else fs.read q := by
  induction fs with
  | nil =>
    show FS.read [(p, c)] q = if q = p then some c else FS.read [] q
    rw [FS.read_cons]
    by_cases h : p = q
    · rw [if_pos h, if_pos h.symm]
    · rw [if_neg h, if_neg (fun hh => h hh.symm)]
  | cons e fs ih =>
    rw [FS.write_cons]
    by_cases he : e.1 = p
    · rw [if_pos he, ih]
      by_cases hq : q = p
      · rw [if_pos hq, if_pos hq]
      · rw [if_neg hq, if_neg hq, FS.read_cons,
          if_neg (by rw [he]; exact fun hh => hq hh.symm)]
    · rw [if_neg he, FS.read_cons e (FS.write fs p c)]
      by_cases h2 : e.1 = q
      · have hq : ¬ (q = p) := fun hh => he (h2.trans hh)
        rw [if_pos h2, if_neg hq, FS.read_cons, if_pos h2]
      · rw [if_neg h2, ih]
        by_cases hq : q = p
        · rw [if_pos hq, if_pos hq]
        · rw [if_neg hq, if_neg hq, FS.read_cons, if_neg h2]

theorem FS.remove_cons (e : Bytes × Bytes) (fs : FS) (p : Bytes) :
    FS.remove (e :: fs) p =
      if e.1 = p then fs.remove p else e :: fs.remove p := by
  by_cases h : e.1 = p
  · simp [FS.remove, List.filter_cons, h]
  · simp [FS.remove, List.filter_cons, h]

theorem FS.read_remove (fs : FS) (p q : Bytes) :
    (fs.remove p).read q = if q = p then none else fs.read q := by
  induction fs with
  | nil =>
    show FS.read [] q = if q = p then none else FS.read [] q
    by_cases h : q = p
    · rw [if_pos h]
      rfl
    · rw [if_neg h]
  | cons e fs ih =>
    rw [FS.remove_cons]
    by_cases he : e.1 = p
    · rw [if_pos he, ih]
      by_cases hq : q = p
      · rw [if_pos hq, if_pos hq]
      · rw [if_neg hq, if_neg hq, FS.read_cons,
          if_neg (by rw [he]; exact fun hh => hq hh.symm)]
    · rw [if_neg he, FS.read_cons]
      by_cases h2 : e.1 = q
      · have hq : ¬ (q = p) := fun hh => he (h2.trans hh)
        rw [if_pos h2, if_neg hq, FS.read_cons, if_pos h2]
      · rw [if_neg h2, ih]
        by_cases hq : q = p
        · rw [if_pos hq, if_pos hq]
        · rw [if_neg hq, if_neg hq, FS.read_cons, if_neg h2]

theorem removeAll_read (ps : List Bytes) : ∀ (fs : FS) (q : Bytes),
    (removeAll fs ps).read q = if q ∈ ps then none else fs.read q := by
  induction ps with
  | nil =>
    intro fs q
    simp [removeAll]
  | cons p rest ih =>
    intro fs q
    rw [removeAll, ih]
    by_cases h : q ∈ rest
    · simp [h]
    · rw [if_neg h, FS.read_remove]
      by_cases h2 : q = p
      · simp [h2]
      · simp [List.mem_cons, h2, h]

/-! ### Order properties of the sort comparisons -/

theorem bytesLe_refl (a : Bytes) : bytesLe a a = true := by
  induction a with
  | nil => rfl
  | cons x as ih => simp [bytesLe, ih]

theorem bytesLe_total (a : Bytes) : ∀ (b : Bytes),
    bytesLe a b = true ∨ bytesLe b a = true := by
  induction a with
  | nil =>
    intro b
    left
    rfl
  | cons x as ih =>
    intro b
    cases b with
    | nil =>
      right
      rfl
    | cons y bs =>
      rcases Nat.lt_trichotomy x y with h | h | h
      · left
        simp [bytesLe, h]
      · subst h
        rcases ih bs with h2 | h2
        · left
          simp [bytesLe, h2]
        · right
          simp [bytesLe, h2]
      · right
        simp [bytesLe, h]

theorem bytesLe_trans : ∀ (a b c : Bytes),
    bytesLe a b = true → bytesLe b c = true → bytesLe a c = true := by
  intro a
  induction a with
  | nil =>
    intro b c _ _
    rfl
  | cons x as ih =>
    intro b c hab hbc
    cases b with
    | nil => simp [bytesLe] at hab
    | cons y bs =>
      cases c with
      | nil => simp [bytesLe] at hbc
      | cons z cs =>
        simp only [bytesLe] at hab hbc ⊢
        split_ifs at hab hbc ⊢ <;>
          first
            | rfl
            | omega
            | exact ih bs cs hab hbc

theorem bytesLe_antisymm : ∀ (a b : Bytes),
    bytesLe a b = true → bytesLe b a = true → a = b := by
  intro a
  induction a with
  | nil =>
    intro b _ hba
    cases b with
    | nil => rfl
    | cons y bs => simp [bytesLe] at hba
  | cons x as ih =>
    intro b hab hba
    cases b with
    | nil => simp [bytesLe] at hab
    | cons y bs =>
      rcases Nat.lt_trichotomy x y with h | h | h
      · rw [show bytesLe (y :: bs) (x :: as) = false from by
          simp only [bytesLe]
          rw [if_neg (by omega), if_neg (by omega)]] at hba
        exact absurd hba (by simp)
      · subst h
        have hab' : bytesLe as bs = true := by
          simpa [bytesLe] using hab
        have hba' : bytesLe bs as = true := by
          simpa [bytesLe] using hba
        rw [ih bs hab' hba']
      · rw [show bytesLe (x :: as) (y :: bs) = false from by
          simp only [bytesLe]
          rw [if_neg (by omega), if_neg (by omega)]] at hab
        exact absurd hab (by simp)

theorem entryLe_total (a b : DirEntry) : (entryLe a b || entryLe b a) = true := by
  rw [Bool.or_eq_true]
  by_cases h : a.name = b.name
  · rw [entryLe, if_pos h, entryLe, if_pos h.symm]
    rcases le_total a.isDir b.isDir with h2 | h2
    · left
      simpa using h2
    · right
      simpa using h2
  · rw [entryLe, if_neg h, entryLe, if_neg (fun hh => h hh.symm)]
    exact bytesLe_total a.name b.name

theorem entryLe_trans (a b c : DirEntry) :
    entryLe a b = true → entryLe b c = true → entryLe a c = true := by
  intro hab hbc
  by_cases h1 : a.name = b.name <;> by_cases h2 : b.name = c.name
  · rw [entryLe, if_pos h1] at hab
    rw [entryLe, if_pos h2] at hbc
    rw [entryLe, if_pos (h1.trans h2)]
    simp only [decide_eq_true_eq] at hab hbc ⊢
    exact le_trans hab hbc
  · have h3 : ¬ (a.name = c.name) := fun hh => h2 (h1.symm.trans hh)
    rw [entryLe, if_neg h2] at hbc
    rw [entryLe, if_neg h3, h1]
    exact hbc
  · have h3 : ¬ (a.name = c.name) := fun hh => h1 (hh.trans h2.symm)
    rw [entryLe, if_neg h1] at hab
    rw [entryLe, if_neg h3, ← h2]
    exact hab
  · rw [entryLe, if_neg h1] at hab
    rw [entryLe, if_neg h2] at hbc
    have h4 := bytesLe_trans _ _ _ hab hbc
    by_cases h3 : a.name = c.name
    · rw [h3] at hab
      have := bytesLe_antisymm _ _ hbc hab
      exact absurd (h3.trans this.symm) h1
    · rw [entryLe, if_neg h3]
      exact h4

theorem entryLe_antisymm (a b : DirEntry) :
    entryLe a b = true → entryLe b a = true → a = b := by
  intro hab hba
  by_cases h : a.name = b.name
  · rw [entryLe, if_pos h] at hab
    rw [entryLe, if_pos h.symm] at hba
    simp only [decide_eq_true_eq] at hab hba
    have h2 : a.isDir = b.isDir := le_antisymm hab hba
    cases a
    cases b
    simp_all
  · rw [entryLe, if_neg h] at hab
    rw [entryLe, if_neg (fun hh => h hh.symm)] at hba
    exact absurd (bytesLe_antisymm _ _ hab hba) h

theorem chunkLe_trans (a b c : parsedChunk) :
    chunkLe a b = true → chunkLe b c = true → chunkLe a c = true := by
  simp only [chunkLe, decide_eq_true_eq]
  omega

theorem chunkLe_total (a b : parsedChunk) : (chunkLe a b || chunkLe b a) = true := by
  simp only [chunkLe, Bool.or_eq_true, decide_eq_true_eq]
  omega

instance : IsAntisymm DirEntry (fun a b => entryLe a b = true) where
  antisymm := entryLe_antisymm

instance : IsAntisymm parsedChunk (fun a b => a.index < b.index) where
  antisymm := fun a b h1 h2 => absurd h1 (by omega)

instance : IsTotal DirEntry (fun a b => entryLe a b = true) where
  total := fun a b => by
    have h := entryLe_total a b
    rw [Bool.or_eq_true] at h
    exact h

instance : IsTrans DirEntry (fun a b => entryLe a b = true) where
  trans := entryLe_trans

instance : IsTotal parsedChunk (fun a b => chunkLe a b = true) where
  total := fun a b => by
    have h := chunkLe_total a b
    rw [Bool.or_eq_true] at h
    exact h

instance : IsTrans parsedChunk (fun a b => chunkLe a b = true) where
  trans := chunkLe_trans

/-- `os.ReadDir`'s name sort canonicalises the raw listing order: any two
listings of the same entry multiset sort identically. -/
theorem readDirSort_perm_eq {l₁ l₂ : List DirEntry} (h : l₁.Perm l₂) :
    readDirSort l₁ = readDirSort l₂ := by
  apply List.eq_of_perm_of_sorted (r := fun a b => entryLe a b = true)
  · exact (List.perm_insertionSort _ l₁).trans
      (h.trans (List.perm_insertionSort _ l₂).symm)
  · exact List.sorted_insertionSort _ l₁
  · exact List.sorted_insertionSort _ l₂

theorem checkFiles_perm_invariant (dir : Bytes) {l₁ l₂ : List DirEntry}
    (h : l₁.Perm l₂) : checkFiles dir l₁ = checkFiles dir l₂ := by
  rw [checkFiles, checkFiles, readDirSort_perm_eq h]

theorem checkFiles_sorted (dir : Bytes) (entries : List DirEntry) :
    (checkFiles dir entries).Sorted (fun a b => a.index ≤ b.index) := by
  have h := List.sorted_insertionSort (fun a b => chunkLe a b = true)
    ((readDirSort entries).filterMap (entryChunk dir))
  exact h.imp (by simp [chunkLe])

theorem checkFiles_perm (dir : Bytes) (entries : List DirEntry) :
    (checkFiles dir entries).Perm (entries.filterMap (entryChunk dir)) := by
  exact (List.perm_insertionSort _ _).trans
    ((List.perm_insertionSort _ entries).filterMap (entryChunk dir))

theorem sorted_strict_of_nodup {l : List parsedChunk}
    (hs : l.Sorted (fun a b => a.index ≤ b.index))
    (hnd : (l.map parsedChunk.index).Nodup) :
    l.Sorted (fun a b => a.index < b.index) := by
  have h2 : l.Pairwise (fun a b => a.index ≠ b.index) := List.pairwise_map.mp hnd
  exact (hs.and h2).imp (by
    intro a b hab
    omega)

theorem sorted_unique_by_index {l₁ l₂ : List parsedChunk}
    (hp : l₁.Perm l₂)
    (hs₁ : l₁.Sorted (fun a b => a.index ≤ b.index))
    (hs₂ : l₂.Sorted (fun a b => a.index ≤ b.index))
    (hnd : (l₁.map parsedChunk.index).Nodup) : l₁ = l₂ := by
  have hnd₂ : (l₂.map parsedChunk.index).Nodup := ((hp.map _).nodup_iff).mp hnd
  exact List.eq_of_perm_of_sorted hp (sorted_strict_of_nodup hs₁ hnd)
    (sorted_strict_of_nodup hs₂ hnd₂)

/-! ### Copy-loop characterisation -/

/-- The bytes one chunk contributes to the output stream and to the hash
(the first chunk minus its 98-byte header). -/
def chunkData (fs : FS) (c : parsedChunk) : Bytes :=
  if c.first then ((fs.read c.name).getD []).drop 98 else (fs.read c.name).getD []

/-- The whole byte stream the copy loop writes to the output and hashes. -/
def chunksData (fs : FS) (cs : List parsedChunk) : Bytes :=
  (cs.map (chunkData fs)).flatten

theorem chunksData_cons (fs : FS) (c : parsedChunk) (rest : List parsedChunk) :
    chunksData fs (c :: rest) = chunkData fs c ++ chunksData fs rest := by
  simp [chunksData]

theorem copyLoop_reads (outPath : Bytes) (cs : List parsedChunk) :
    ∀ (fs : FS) (acc cur : Bytes),
    (∀ c ∈ cs, c.name ≠ outPath) →
    (∀ c ∈ cs, (fs.read c.name).isSome) →
    fs.read outPath = some cur →
    (copyLoop fs outPath acc cs).2.2 = none ∧
    (copyLoop fs outPath acc cs).2.1 = acc ++ chunksData fs cs ∧
    (∀ q, (copyLoop fs outPath acc cs).1.read q =
      if q = outPath then some (cur ++ chunksData fs cs) else fs.read q) := by
  induction cs with
  | nil =>
    intro fs acc cur _ _ hcur
    refine ⟨rfl, by simp [copyLoop, chunksData], ?_⟩
    intro q
    by_cases hq : q = outPath
    · rw [if_pos hq, hq]
      show fs.read outPath = _
      rw [hcur]
      simp [chunksData]
    · rw [if_neg hq]
      rfl
  | cons c rest ih =>
    intro fs acc cur hne hsome hcur
    have hc := hsome c (by simp)
    obtain ⟨raw, hraw⟩ := Option.isSome_iff_exists.mp hc
    have hcne : c.name ≠ outPath := hne c (by simp)
    have hdata0 : chunkData fs c = if c.first then raw.drop 98 else raw := by
      rw [chunkData, hraw]
      rfl
    have step : copyLoop fs outPath acc (c :: rest) =
        copyLoop (fs.write outPath (cur ++ (if c.first then raw.drop 98 else raw)))
          outPath (acc ++ (if c.first then raw.drop 98 else raw)) rest := by
      rw [copyLoop, hraw, hcur]
      rfl
    rw [step]
    have hne' : ∀ c' ∈ rest, c'.name ≠ outPath := fun c' hm => hne c' (by simp [hm])
    have hreads' : ∀ c' ∈ rest,
        (fs.write outPath (cur ++ (if c.first then raw.drop 98 else raw))).read c'.name
          = fs.read c'.name := by
      intro c' hm
      rw [FS.read_write, if_neg (hne' c' hm)]
    have hsome' : ∀ c' ∈ rest,
        ((fs.write outPath (cur ++ (if c.first then raw.drop 98 else raw))).read c'.name).isSome := by
      intro c' hm
      rw [hreads' c' hm]
      exact hsome c' (by simp [hm])
    have hcur' :
        (fs.write outPath (cur ++ (if c.first then raw.drop 98 else raw))).read outPath
          = some (cur ++ (if c.first then raw.drop 98 else raw)) := by
      rw [FS.read_write, if_pos rfl]
    obtain ⟨ih1, ih2, ih3⟩ := ih _ _ _ hne' hsome' hcur'
    have hcd : chunksData (fs.write outPath (cur ++ (if c.first then raw.drop 98 else raw))) rest
        = chunksData fs rest := by
      rw [chunksData, chunksData]
      congr 1
      apply List.map_congr_left
      intro c' hm
      rw [chunkData, chunkData, hreads' c' hm]
    refine ⟨ih1, ?_, ?_⟩
    · rw [ih2, hcd, chunksData_cons, hdata0, List.append_assoc]
    · intro q
      rw [ih3 q, hcd]
      by_cases hq : q = outPath
      · rw [if_pos hq, if_pos hq, chunksData_cons, hdata0, List.append_assoc]
      · rw [if_neg hq, if_neg hq, FS.read_write, if_neg hq]

/-! ### The fragment layout left behind by a successful split -/

/-- The data fragments with indices `i0, i0+1, ...` paired with their paths,
in write order. -/
def pieceFiles (outDir stem : Bytes) : Nat → List Bytes → FS
  | _, [] => []
  | i, p :: rest =>
    (joinPath outDir (fragName stem i), p) :: pieceFiles outDir stem (i + 1) rest

/-- The on-disk layout a successful split leaves behind, in store order:
fragments `1..` in loop order, fragment `0` (header ++ first piece)
re-created last by the header embedding. -/
def fragmentFS (outDir stem : Bytes) (meta : metadata) (pieces : List Bytes) : FS :=
  match pieces with
  | [] => []
  | p0 :: rest =>
    pieceFiles outDir stem 1 rest ++
      [(joinPath outDir (fragName stem 0), encodeMeta meta ++ p0)]

/-- Content of fragment `i` in that layout. -/
def fragContent (meta : metadata) (pieces : List Bytes) (i : Nat) : Bytes :=
  if i = 0 then encodeMeta meta ++ pieces.getD 0 [] else pieces.getD i []

/-- The `parsedChunk` discovery recovers for fragment `i`. -/
def canonChunk (outDir stem : Bytes) (i : Nat) : parsedChunk :=
  ⟨i == 0, joinPath outDir (fragName stem i), i⟩

/-- The discovery result for a complete fragment set of `k` fragments. -/
def canonChunks (outDir stem : Bytes) (k : Nat) : List parsedChunk :=
  (List.range k).map (canonChunk outDir stem)

theorem fragName_inj {stem : Bytes} {i j : Nat} (hi : i < 10000)
    (hj : j < 10000) (h : fragName stem i = fragName stem j) : i = j := by
  have h1 := parseFragIdx_fragName stem hi
  have h2 := parseFragIdx_fragName stem hj
  rw [h] at h1
  rw [h1] at h2
  exact Option.some_injective _ h2

theorem joinPath_inj {d a b : Bytes} (h : joinPath d a = joinPath d b) :
    a = b := by
  have h2 := List.append_cancel_left h
  exact List.tail_eq_of_cons_eq h2

theorem decDigits_mem (n : Nat) : ∀ c ∈ decDigits n, 48 ≤ c ∧ c ≤ 57 := by
  rw [decDigits_eq]
  by_cases h : n < 10
  · rw [if_pos h]
    intro c hc
    simp only [List.mem_singleton] at hc
    subst hc
    omega
  · rw [if_neg h]
    intro c hc
    rw [List.mem_append, List.mem_singleton] at hc
    rcases hc with hc | hc
    · exact decDigits_mem (n / 10) c hc
    · subst hc
      omega
termination_by n
decreasing_by exact Nat.div_lt_self (by omega) (by omega)

theorem pad4_mem (i : Nat) : ∀ c ∈ pad4 i, 48 ≤ c ∧ c ≤ 57 := by
  intro c hc
  rw [pad4, List.mem_append] at hc
  rcases hc with hc | hc
  · have := List.eq_of_mem_replicate hc
    omega
  · exact decDigits_mem i c hc

theorem fragName_ne_nil (stem : Bytes) (i : Nat) : fragName stem i ≠ [] := by
  rw [fragName]
  cases stem <;> simp

theorem slash_not_mem_fragName {stem : Bytes} (hstem : slashB ∉ stem)
    (i : Nat) : slashB ∉ fragName stem i := by
  rw [fragName]
  intro hmem
  rw [List.mem_append, List.mem_cons, List.mem_append] at hmem
  rcases hmem with h | h | h | h
  · exact hstem h
  · exact absurd h (by rw [slashB]; omega)
  · have := pad4_mem i _ h
    rw [slashB] at this
    omega
  · rw [dotPartStr, slashB] at h
    simp at h

theorem FS.read_append (fs1 fs2 : FS) (q : Bytes) :
    FS.read (fs1 ++ fs2) q = (FS.read fs1 q).or (FS.read fs2 q) := by
  rw [FS.read, FS.read, FS.read, List.find?_append]
  cases h : List.find? (fun e => e.1 = q) fs1 <;> simp

theorem pieceFiles_read_hit (outDir stem : Bytes) :
    ∀ (rest : List Bytes) (i0 j : Nat), j < rest.length →
    i0 + rest.length ≤ 10000 →
    FS.read (pieceFiles outDir stem i0 rest)
      (joinPath outDir (fragName stem (i0 + j))) = some (rest.getD j []) := by
  intro rest
  induction rest with
  | nil =>
    intro i0 j hj _
    simp at hj
  | cons p rest ih =>
    intro i0 j hj hub
    simp only [List.length_cons] at hj hub
    rw [pieceFiles, FS.read_cons]
    cases j with
    | zero =>
      rw [if_pos (by rw [Nat.add_zero])]
      rfl
    | succ j =>
      rw [if_neg]
      · have h1 := ih (i0 + 1) j (by omega) (by omega)
        have h2 : i0 + 1 + j = i0 + (j + 1) := by omega
        rw [h2] at h1
        rw [h1]
        rfl
      · intro hcontra
        have := fragName_inj (by omega) (by omega)
          (joinPath_inj hcontra)
        omega

theorem pieceFiles_read_miss (outDir stem : Bytes) :
    ∀ (rest : List Bytes) (i0 : Nat) (q : Bytes),
    (∀ j, j < rest.length → q ≠ joinPath outDir (fragName stem (i0 + j))) →
    FS.read (pieceFiles outDir stem i0 rest) q = none := by
  intro rest
  induction rest with
  | nil =>
    intro i0 q _
    rfl
  | cons p rest ih =>
    intro i0 q hq
    rw [pieceFiles, FS.read_cons, if_neg]
    · apply ih (i0 + 1) q
      intro j hj hc
      exact hq (j + 1) (by simp; omega) (by rw [hc]; congr 2; omega)
    · intro hc
      exact hq 0 (by simp) (by rw [Nat.add_zero]; exact hc.symm)

theorem fragmentFS_read_frag (outDir stem : Bytes) (meta : metadata)
    (pieces : List Bytes) (hub : pieces.length ≤ 10000) :
    ∀ i, i < pieces.length →
    FS.read (fragmentFS outDir stem meta pieces)
      (joinPath outDir (fragName stem i)) = some (fragContent meta pieces i) := by
  intro i hi
  cases pieces with
  | nil => simp at hi
  | cons p0 rest =>
    simp only [List.length_cons] at hi hub
    rw [fragmentFS, FS.read_append]
    cases i with
    | zero =>
      rw [pieceFiles_read_miss]
      · rw [Option.none_or, FS.read_cons, if_pos rfl]
        rfl
      · intro j hj hc
        have := fragName_inj (by omega) (by omega)
          (joinPath_inj hc)
        omega
    | succ i =>
      have h1 := pieceFiles_read_hit outDir stem rest 1 i (by omega) (by omega)
      have h2 : 1 + i = i + 1 := by omega
      rw [h2] at h1
      rw [h1]
      rfl

theorem fragmentFS_read_other (outDir stem : Bytes) (meta : metadata)
    (pieces : List Bytes) (q : Bytes)
    (h : ∀ i, i < pieces.length → q ≠ joinPath outDir (fragName stem i)) :
    FS.read (fragmentFS outDir stem meta pieces) q = none := by
  cases pieces with
  | nil => rfl
  | cons p0 rest =>
    rw [fragmentFS, FS.read_append, pieceFiles_read_miss]
    · rw [Option.none_or, FS.read_cons, if_neg]
      · rfl
      · intro hc
        exact h 0 (by simp) hc.symm
    · intro j hj hc
      exact h (1 + j) (by simp; omega) hc

/-! ### Discovery on a fragment layout -/

theorem stripDir_join (dir n : Bytes) (hne : n ≠ []) (hns : slashB ∉ n) :
    stripDir dir (joinPath dir n) = some n := by
  rw [stripDir]
  have hpre : (dir ++ [slashB]).isPrefixOf (joinPath dir n) = true := by
    rw [List.isPrefixOf_iff_prefix]
    exact ⟨n, by simp [joinPath]⟩
  rw [if_pos hpre]
  have hdrop : (joinPath dir n).drop (dir.length + 1) = n := by
    have h1 : joinPath dir n = (dir ++ [slashB]) ++ n := by simp [joinPath]
    rw [h1, List.drop_left' (by simp)]
  simp only [hdrop]
  rw [if_pos ⟨hne, hns⟩]

theorem rawEntries_cons (e : Bytes × Bytes) (fs : FS) (dir : Bytes) :
    rawEntries (e :: fs) dir =
      match stripDir dir e.1 with
      | some n => ⟨n, false⟩ :: rawEntries fs dir
      | none => rawEntries fs dir := by
  rw [rawEntries, List.filterMap_cons]
  cases h : stripDir dir e.1 <;> simp [h, rawEntries]

theorem entryChunk_fragName (outDir stem : Bytes) {i : Nat} (hi : i < 10000) :
    entryChunk outDir ⟨fragName stem i, false⟩
      = some (canonChunk outDir stem i) := by
  rw [entryChunk]
  simp only [Bool.false_eq_true, if_false]
  rw [parseFragIdx_fragName stem hi]
  rfl

theorem pieceFiles_chunks (outDir stem : Bytes) (hstem : slashB ∉ stem) :
    ∀ (rest : List Bytes) (i0 : Nat), i0 + rest.length ≤ 10000 →
    (rawEntries (pieceFiles outDir stem i0 rest) outDir).filterMap
        (entryChunk outDir)
      = (List.range' i0 rest.length).map (canonChunk outDir stem) := by
  intro rest
  induction rest with
  | nil =>
    intro i0 _
    rfl
  | cons p rest ih =>
    intro i0 hub
    simp only [List.length_cons] at hub
    have hsd : stripDir outDir (joinPath outDir (fragName stem i0))
        = some (fragName stem i0) :=
      stripDir_join _ _ (fragName_ne_nil stem i0)
        (slash_not_mem_fragName hstem i0)
    rw [pieceFiles, rawEntries_cons]
    simp only [hsd]
    rw [List.filterMap_cons]
    rw [entryChunk_fragName outDir stem (by omega)]
    simp only [List.length_cons]
    rw [show List.range' i0 (rest.length + 1)
        = i0 :: List.range' (i0 + 1) rest.length from rfl]
    rw [List.map_cons, ← ih (i0 + 1) (by omega)]

theorem fragmentFS_chunks (outDir stem : Bytes) (meta : metadata)
    (hstem : slashB ∉ stem) (p0 : Bytes) (rest : List Bytes)
    (hub : rest.length + 1 ≤ 10000) :
    (rawEntries (fragmentFS outDir stem meta (p0 :: rest)) outDir).filterMap
        (entryChunk outDir)
      = (List.range' 1 rest.length).map (canonChunk outDir stem) ++
          [canonChunk outDir stem 0] := by
  rw [fragmentFS]
  have happ : rawEntries (pieceFiles outDir stem 1 rest ++
      [(joinPath outDir (fragName stem 0), encodeMeta meta ++ p0)]) outDir
      = rawEntries (pieceFiles outDir stem 1 rest) outDir ++
        rawEntries [(joinPath outDir (fragName stem 0),
          encodeMeta meta ++ p0)] outDir := by
    rw [rawEntries, rawEntries, rawEntries, List.filterMap_append]
  rw [happ, List.filterMap_append, pieceFiles_chunks outDir stem hstem rest 1
    (by omega)]
  congr 1
  have hsd : stripDir outDir (joinPath outDir (fragName stem 0))
      = some (fragName stem 0) :=
    stripDir_join _ _ (fragName_ne_nil stem 0) (slash_not_mem_fragName hstem 0)
  rw [rawEntries_cons]
  simp only [hsd]
  rw [show rawEntries [] outDir = [] from rfl]
  rw [List.filterMap_cons]
  rw [entryChunk_fragName outDir stem (by omega)]
  rfl

theorem canonChunks_sorted (outDir stem : Bytes) (k : Nat) :
    (canonChunks outDir stem k).Sorted (fun a b => a.index ≤ b.index) := by
  rw [canonChunks, List.Sorted, List.pairwise_map]
  exact (List.pairwise_lt_range k).imp (by
    intro a b h
    simp [canonChunk]
    omega)

theorem canonChunks_indices_nodup (outDir stem : Bytes) (k : Nat) :
    ((canonChunks outDir stem k).map parsedChunk.index).Nodup := by
  rw [canonChunks, List.map_map]
  have h1 : (parsedChunk.index ∘ canonChunk outDir stem) = id := by
    funext i
    rfl
  rw [h1, List.map_id]
  exact List.nodup_range k

theorem checkFiles_fragmentFS (outDir stem : Bytes) (meta : metadata)
    (pieces : List Bytes) (hstem : slashB ∉ stem) (h0 : pieces ≠ [])
    (hub : pieces.length ≤ 10000) :
    checkFiles outDir (rawEntries (fragmentFS outDir stem meta pieces) outDir)
      = canonChunks outDir stem pieces.length := by
  cases pieces with
  | nil => exact absurd rfl h0
  | cons p0 rest =>
    have hub' : rest.length + 1 ≤ 10000 := by simpa using hub
    have hp1 := checkFiles_perm outDir
      (rawEntries (fragmentFS outDir stem meta (p0 :: rest)) outDir)
    rw [fragmentFS_chunks outDir stem meta hstem p0 rest hub'] at hp1
    have hp2 : ((List.range' 1 rest.length).map (canonChunk outDir stem) ++
        [canonChunk outDir stem 0]).Perm
          (canonChunks outDir stem (rest.length + 1)) := by
      refine (List.perm_append_singleton _ _).trans ?_
      rw [canonChunks, List.range_eq_range']
      rw [show List.range' 0 (rest.length + 1)
          = 0 :: List.range' 1 rest.length from rfl]
      rw [List.map_cons]
    have hp : (canonChunks outDir stem (rest.length + 1)).Perm
        (checkFiles outDir
          (rawEntries (fragmentFS outDir stem meta (p0 :: rest)) outDir)) :=
      hp2.symm.trans hp1.symm
    have heq := sorted_unique_by_index hp
      (canonChunks_sorted outDir stem (rest.length + 1))
      (checkFiles_sorted outDir _)
      (canonChunks_indices_nodup outDir stem (rest.length + 1))
    rw [← heq]
    rfl

/-! ### The merge of a complete fragment layout -/

theorem encodeMeta_append_drop (meta : metadata) (p : Bytes) :
    (encodeMeta meta ++ p).drop 98 = p :=
  List.drop_left' (encodeMeta_length meta)

theorem canonChunks_cons (outDir stem : Bytes) {k : Nat} (hk : 0 < k) :
    canonChunks outDir stem k
      = canonChunk outDir stem 0 ::
          (List.range' 1 (k - 1)).map (canonChunk outDir stem) := by
  cases k with
  | zero => omega
  | succ n =>
    rw [canonChunks, List.range_eq_range']
    rw [show List.range' 0 (n + 1) = 0 :: List.range' 1 n from rfl,
      List.map_cons]
    simp

theorem mergeFile_fragmentFS
    (hashFn : Bytes → Bytes) (outDir stem : Bytes) (meta : metadata)
    (pieces : List Bytes)
    (hstem : slashB ∉ stem) (h0 : pieces ≠ []) (hub : pieces.length ≤ 10000)
    (hWF : meta.WF)
    (hout : ∀ i, i < pieces.length → fragName stem i ≠ trimByte 0 meta.Name) :
    (MergeFile hashFn (fragmentFS outDir stem meta pieces) outDir).2
      = (if hashFn pieces.flatten = meta.Hash then none
         else some "hash mismatch: file not reconstructed properly") ∧
    (MergeFile hashFn (fragmentFS outDir stem meta pieces) outDir).1.read
        (joinPath outDir (trimByte 0 meta.Name)) = some pieces.flatten ∧
    (∀ i, i < pieces.length →
      (MergeFile hashFn (fragmentFS outDir stem meta pieces) outDir).1.read
          (joinPath outDir (fragName stem i)) =
        (if hashFn pieces.flatten = meta.Hash then none
         else some (fragContent meta pieces i))) ∧
    (∀ q, (∀ i, i < pieces.length → q ≠ joinPath outDir (fragName stem i)) →
      q ≠ joinPath outDir (trimByte 0 meta.Name) →
      (MergeFile hashFn (fragmentFS outDir stem meta pieces) outDir).1.read q
        = none) := by
  have hkpos : 0 < pieces.length := List.length_pos.mpr h0
  have hchunks : checkFiles outDir
      (rawEntries (fragmentFS outDir stem meta pieces) outDir)
      = canonChunks outDir stem pieces.length :=
    checkFiles_fragmentFS outDir stem meta pieces hstem h0 hub
  have hcanon_cons := canonChunks_cons outDir stem hkpos
  have hnotEmpty : (canonChunks outDir stem pieces.length).isEmpty = false := by
    rw [hcanon_cons]
    rfl
  have hfind : (canonChunks outDir stem pieces.length).find?
      (fun c => c.first) = some (canonChunk outDir stem 0) := by
    rw [hcanon_cons]
    apply List.find?_cons_of_pos
    rfl
  have hread0 : FS.read (fragmentFS outDir stem meta pieces)
      (canonChunk outDir stem 0).name
      = some (encodeMeta meta ++ pieces.getD 0 []) := by
    have h1 := fragmentFS_read_frag outDir stem meta pieces hub 0 hkpos
    rw [fragContent, if_pos rfl] at h1
    exact h1
  have hdec : decodeMeta (encodeMeta meta ++ pieces.getD 0 []) = some meta :=
    decodeMeta_encodeMeta hWF _
  have hnames : ∀ c ∈ canonChunks outDir stem pieces.length,
      c.name ≠ joinPath outDir (trimByte 0 meta.Name) := by
    intro c hc
    rw [canonChunks, List.mem_map] at hc
    obtain ⟨i, hi, rfl⟩ := hc
    rw [List.mem_range] at hi
    intro hcon
    exact hout i hi (joinPath_inj hcon)
  have hreads1 : ∀ c ∈ canonChunks outDir stem pieces.length,
      FS.read ((fragmentFS outDir stem meta pieces).write
          (joinPath outDir (trimByte 0 meta.Name)) []) c.name
        = FS.read (fragmentFS outDir stem meta pieces) c.name := by
    intro c hc
    rw [FS.read_write, if_neg (hnames c hc)]
  have hsome : ∀ c ∈ canonChunks outDir stem pieces.length,
      (FS.read ((fragmentFS outDir stem meta pieces).write
          (joinPath outDir (trimByte 0 meta.Name)) []) c.name).isSome := by
    intro c hc
    rw [hreads1 c hc]
    have hc' := hc
    rw [canonChunks, List.mem_map] at hc'
    obtain ⟨i, hi, rfl⟩ := hc'
    rw [List.mem_range] at hi
    rw [show (canonChunk outDir stem i).name
        = joinPath outDir (fragName stem i) from rfl]
    rw [fragmentFS_read_frag outDir stem meta pieces hub i hi]
    rfl
  have hcur : FS.read ((fragmentFS outDir stem meta pieces).write
      (joinPath outDir (trimByte 0 meta.Name)) [])
      (joinPath outDir (trimByte 0 meta.Name)) = some [] := by
    rw [FS.read_write, if_pos rfl]
  obtain ⟨hcl1, hcl2, hcl3⟩ := copyLoop_reads
    (joinPath outDir (trimByte 0 meta.Name))
    (canonChunks outDir stem pieces.length)
    ((fragmentFS outDir stem meta pieces).write
      (joinPath outDir (trimByte 0 meta.Name)) [])
    [] [] hnames hsome hcur
  have hmap : (canonChunks outDir stem pieces.length).map
      (chunkData ((fragmentFS outDir stem meta pieces).write
        (joinPath outDir (trimByte 0 meta.Name)) [])) = pieces := by
    rw [canonChunks, List.map_map]
    apply List.ext_getElem
    · simp
    · intro i h1 h2
      have hik : i < pieces.length := h2
      rw [List.getElem_map, List.getElem_range, Function.comp_apply]
      have hmem : canonChunk outDir stem i ∈ canonChunks outDir stem pieces.length := by
        rw [canonChunks, List.mem_map]
        exact ⟨i, by rw [List.mem_range]; exact hik, rfl⟩
      rw [chunkData, hreads1 _ hmem]
      rw [show (canonChunk outDir stem i).name
          = joinPath outDir (fragName stem i) from rfl]
      rw [fragmentFS_read_frag outDir stem meta pieces hub i hik]
      by_cases hi0 : i = 0
      · subst hi0
        rw [show (canonChunk outDir stem 0).first = true from rfl, if_pos rfl]
        rw [Option.getD_some, fragContent, if_pos rfl,
          encodeMeta_append_drop]
        exact List.getD_eq_getElem pieces [] hik
      · rw [show (canonChunk outDir stem i).first = (i == 0) from rfl]
        rw [if_neg (by simpa using hi0)]
        rw [Option.getD_some, fragContent, if_neg hi0]
        exact List.getD_eq_getElem pieces [] hik
  have hcd : chunksData ((fragmentFS outDir stem meta pieces).write
      (joinPath outDir (trimByte 0 meta.Name)) [])
      (canonChunks outDir stem pieces.length) = pieces.flatten := by
    rw [chunksData, hmap]
  rw [hcd] at hcl2 hcl3
  simp only [List.nil_append] at hcl2 hcl3
  have hsplit : copyLoop ((fragmentFS outDir stem meta pieces).write
      (joinPath outDir (trimByte 0 meta.Name)) [])
      (joinPath outDir (trimByte 0 meta.Name)) []
      (canonChunks outDir stem pieces.length)
      = ((copyLoop ((fragmentFS outDir stem meta pieces).write
          (joinPath outDir (trimByte 0 meta.Name)) [])
          (joinPath outDir (trimByte 0 meta.Name)) []
          (canonChunks outDir stem pieces.length)).1,
         pieces.flatten, none) := by
    rw [← hcl1, ← hcl2]
  have hM : MergeFile hashFn (fragmentFS outDir stem meta pieces) outDir
      = (if hashFn pieces.flatten = meta.Hash then
           (removeAll (copyLoop ((fragmentFS outDir stem meta pieces).write
              (joinPath outDir (trimByte 0 meta.Name)) [])
              (joinPath outDir (trimByte 0 meta.Name)) []
              (canonChunks outDir stem pieces.length)).1
             ((canonChunks outDir stem pieces.length).map (fun c => c.name)),
            none)
         else ((copyLoop ((fragmentFS outDir stem meta pieces).write
              (joinPath outDir (trimByte 0 meta.Name)) [])
              (joinPath outDir (trimByte 0 meta.Name)) []
              (canonChunks outDir stem pieces.length)).1,
            some "hash mismatch: file not reconstructed properly")) := by
    rw [MergeFile]
    simp only [hchunks, hnotEmpty, Bool.false_eq_true, if_false, hfind,
      hread0, hdec]
    rw [hsplit]
  rw [hM]
  by_cases hh : hashFn pieces.flatten = meta.Hash
  · rw [if_pos hh, if_pos hh]
    refine ⟨rfl, ?_, ?_, ?_⟩
    · rw [removeAll_read, if_neg]
      · rw [hcl3, if_pos rfl]
      · intro hmem
        rw [List.mem_map] at hmem
        obtain ⟨c, hc, hceq⟩ := hmem
        exact hnames c hc hceq
    · intro i hi
      rw [if_pos hh, removeAll_read, if_pos]
      rw [List.mem_map]
      refine ⟨canonChunk outDir stem i, ?_, rfl⟩
      rw [canonChunks, List.mem_map]
      exact ⟨i, by rw [List.mem_range]; exact hi, rfl⟩
    · intro q hq hqout
      rw [removeAll_read, if_neg]
      · rw [hcl3, if_neg hqout, FS.read_write, if_neg hqout]
        exact fragmentFS_read_other outDir stem meta pieces q hq
      · intro hmem
        rw [List.mem_map] at hmem
        obtain ⟨c, hc, hceq⟩ := hmem
        rw [canonChunks, List.mem_map] at hc
        obtain ⟨i, hi, rfl⟩ := hc
        rw [List.mem_range] at hi
        exact hq i hi hceq.symm
  · rw [if_neg hh, if_neg hh]
    refine ⟨rfl, ?_, ?_, ?_⟩
    · rw [hcl3, if_pos rfl]
    · intro i hi
      rw [if_neg hh]
      have hfne : joinPath outDir (fragName stem i)
          ≠ joinPath outDir (trimByte 0 meta.Name) := by
        intro hcon
        exact hout i hi (joinPath_inj hcon)
      rw [hcl3, if_neg hfne, FS.read_write, if_neg hfne]
      exact fragmentFS_read_frag outDir stem meta pieces hub i hi
    · intro q hq hqout
      rw [hcl3, if_neg hqout, FS.read_write, if_neg hqout]
      exact fragmentFS_read_other outDir stem meta pieces q hq

/-! ### Path decomposition of the temporary chunk -/

theorem findIdx?_slash_append : ∀ (m : Bytes) (r : Bytes) (i : Nat),
    slashB ∉ m →
    List.findIdx? (· = slashB) (m ++ slashB :: r) i = some (i + m.length) := by
  intro m
  induction m with
  | nil =>
    intro r i _
    rw [List.nil_append, List.findIdx?_cons, if_pos (by simp)]
    simp
  | cons x m ih =>
    intro r i h
    have hx : ¬(x = slashB) := fun hh => h (by simp [hh])
    rw [List.cons_append, List.findIdx?_cons, if_neg (by simpa using hx)]
    rw [ih r (i + 1) (fun hc => h (by simp [hc]))]
    congr 1
    simp
    omega

theorem lastIdxOf_join (d n : Bytes) (h : slashB ∉ n) :
    lastIdxOf slashB (joinPath d n) = some d.length := by
  rw [lastIdxOf, joinPath]
  have hrev : (d ++ slashB :: n).reverse = n.reverse ++ slashB :: d.reverse := by
    simp
  rw [hrev, findIdx?_slash_append n.reverse d.reverse 0 (by simpa using h)]
  simp only [List.length_append, List.length_cons, List.length_reverse,
    Nat.zero_add]
  congr 1
  omega

theorem dirOf_join (d n : Bytes) (h : slashB ∉ n) : dirOf (joinPath d n) = d := by
  rw [dirOf, lastIdxOf_join d n h]
  show (joinPath d n).take d.length = d
  rw [joinPath]
  exact List.take_left' rfl

theorem baseOf_join (d n : Bytes) (h : slashB ∉ n) : baseOf (joinPath d n) = n := by
  rw [baseOf, lastIdxOf_join d n h]
  show (joinPath d n).drop (d.length + 1) = n
  have h1 : joinPath d n = (d ++ [slashB]) ++ n := by simp [joinPath]
  rw [h1, List.drop_left' (by simp)]

/-! ### Fresh-key store computations -/

theorem FS.write_fresh (fs : FS) (p c : Bytes) (h : ∀ e ∈ fs, e.1 ≠ p) :
    fs.write p c = fs ++ [(p, c)] := by
  rw [FS.write]
  congr 1
  apply List.filter_eq_self.mpr
  intro e he
  simpa using h e he

theorem FS.write_last (fs : FS) (p c c' : Bytes) (h : ∀ e ∈ fs, e.1 ≠ p) :
    (fs ++ [(p, c)]).write p c' = fs ++ [(p, c')] := by
  rw [FS.write, List.filter_append]
  have h1 : fs.filter (fun e => e.1 ≠ p) = fs := by
    apply List.filter_eq_self.mpr
    intro e he
    simpa using h e he
  have h2 : List.filter (fun e => e.1 ≠ p) [(p, c)] = [] := by
    simp
  rw [h1, h2, List.append_nil]

theorem FS.remove_fresh (fs : FS) (p : Bytes) (h : ∀ e ∈ fs, e.1 ≠ p) :
    fs.remove p = fs := by
  rw [FS.remove]
  apply List.filter_eq_self.mpr
  intro e he
  simpa using h e he

theorem pieceFiles_keys (outDir stem : Bytes) :
    ∀ (rest : List Bytes) (i0 : Nat) (e : Bytes × Bytes),
    e ∈ pieceFiles outDir stem i0 rest →
    ∃ j, j < rest.length ∧ e.1 = joinPath outDir (fragName stem (i0 + j)) := by
  intro rest
  induction rest with
  | nil =>
    intro i0 e he
    simp [pieceFiles] at he
  | cons p rest ih =>
    intro i0 e he
    rw [pieceFiles, List.mem_cons] at he
    rcases he with he | he
    · exact ⟨0, by simp, by rw [he, Nat.add_zero]⟩
    · obtain ⟨j, hj, hkey⟩ := ih (i0 + 1) e he
      exact ⟨j + 1, by simp; omega, by rw [hkey]; congr 2; omega⟩

/-- The temporary name of fragment 0, when the `"part"`→`"tmp"` replacement
lands on the extension. -/
def tmpName (stem : Bytes) : Bytes := (stem ++ 95 :: pad4 0) ++ dotTmpStr

theorem tmpName_length (stem : Bytes) : (tmpName stem).length = stem.length + 9 := by
  simp [tmpName, dotTmpStr, pad4, decDigits, decDigitsAux]

theorem fragName_length (stem : Bytes) {i : Nat} (hi : i < 10000) :
    (fragName stem i).length = stem.length + 10 := by
  simp [fragName, dotPartStr, pad4_length hi]

theorem tmpName_ne_fragName (stem : Bytes) {i : Nat} (hi : i < 10000) :
    tmpName stem ≠ fragName stem i := by
  intro h
  have h1 := congrArg List.length h
  rw [tmpName_length, fragName_length stem hi] at h1
  omega

theorem slash_not_mem_tmpName {stem : Bytes} (hstem : slashB ∉ stem) :
    slashB ∉ tmpName stem := by
  rw [tmpName]
  intro hmem
  rw [List.mem_append, List.mem_append, List.mem_cons] at hmem
  rcases hmem with (h | h | h) | h
  · exact hstem h
  · rw [slashB] at h
    omega
  · have := pad4_mem 0 _ h
    rw [slashB] at this
    omega
  · rw [dotTmpStr, slashB] at h
    simp at h

/-! ### What a successful split writes -/

theorem FS.write_nil (p c : Bytes) : FS.write [] p c = [(p, c)] := rfl

theorem chunkify_cons (size : Nat) (content : Bytes) (h0 : content ≠ [])
    (hs : size ≠ 0) :
    chunkify size content
      = content.take size :: chunkify size (content.drop size) := by
  rw [chunkify_eq, if_neg (by push_neg; exact ⟨h0, hs⟩)]

theorem splitWrites_eq (outDir stem : Bytes) :
    ∀ (rest : List Bytes) (i0 : Nat) (fs : FS), 1 ≤ i0 →
    i0 + rest.length ≤ 10000 →
    (∀ j, j < rest.length → ∀ e ∈ fs,
      e.1 ≠ joinPath outDir (fragName stem (i0 + j))) →
    splitWrites fs outDir stem i0 rest = fs ++ pieceFiles outDir stem i0 rest := by
  intro rest
  induction rest with
  | nil =>
    intro i0 fs _ _ _
    rw [splitWrites, pieceFiles, List.append_nil]
  | cons p rest ih =>
    intro i0 fs h1 hub hfresh
    simp only [List.length_cons] at hub
    rw [splitWrites]
    have hcp : chunkPath outDir stem i0 = joinPath outDir (fragName stem i0) := by
      rw [chunkPath, if_neg (by omega)]
    rw [hcp]
    have hw : fs.write (joinPath outDir (fragName stem i0)) p
        = fs ++ [(joinPath outDir (fragName stem i0), p)] :=
      FS.write_fresh _ _ _ (fun e he => by
        have h2 := hfresh 0 (by simp) e he
        rwa [Nat.add_zero] at h2)
    have hfresh' : ∀ j, j < rest.length →
        ∀ e ∈ fs ++ [(joinPath outDir (fragName stem i0), p)],
        e.1 ≠ joinPath outDir (fragName stem (i0 + 1 + j)) := by
      intro j hj e he
      rw [List.mem_append, List.mem_singleton] at he
      rcases he with he | he
      · have h2 := hfresh (j + 1) (by simp; omega) e he
        rwa [show i0 + (j + 1) = i0 + 1 + j from by omega] at h2
      · subst he
        show joinPath outDir (fragName stem i0) ≠ _
        intro hcon
        have h3 := @fragName_inj stem i0 (i0 + 1 + j)
          (by omega) (by omega) (joinPath_inj hcon)
        omega
    rw [hw, ih (i0 + 1) _ (by omega) (by omega) hfresh']
    rw [List.append_assoc]
    rfl

/-- The metadata record SplitFile builds on end-of-stream
(lines 85-93 and 117). -/
def splitMeta (hashFn : Bytes → Bytes) (now : Int)
    (content nameBase : Bytes) (chunks : Nat) : metadata :=
  { Hash := hashFn content
  , Total := chunks % 2 ^ 32
  , Size := (content.length : Int)
  , Time := now
  , Name := truncPad 46 0 nameBase }

theorem splitFile_spec (hashFn : Bytes → Bytes) (now : Int)
    (content nameBase outDir : Bytes) (chunks : Nat)
    (hC : 2 ≤ chunks) (hcontent : content ≠ [])
    (hslash : slashB ∉ trimExt nameBase)
    (hub : (chunkify (content.length / chunks + 1) content).length ≤ 10000)
    (htmp : replaceFirst partStr tmpStr
        (joinPath outDir (fragName (trimExt nameBase) 0))
      = joinPath outDir (tmpName (trimExt nameBase))) :
    SplitFile hashFn now [] content nameBase outDir chunks
      = .ok (fragmentFS outDir (trimExt nameBase)
          (splitMeta hashFn now content nameBase chunks)
          (chunkify (content.length / chunks + 1) content)) := by
  have hsz : content.length / chunks + 1 ≠ 0 := Nat.succ_ne_zero _
  have hpieces := chunkify_cons (content.length / chunks + 1) content hcontent hsz
  have hub' : 1 + (chunkify (content.length / chunks + 1)
      (content.drop (content.length / chunks + 1))).length ≤ 10000 := by
    rw [hpieces] at hub
    simp only [List.length_cons] at hub
    omega
  rw [SplitFile, if_neg (by omega)]
  simp only [hpieces, List.isEmpty_cons, Bool.false_eq_true, if_false]
  have hcp0 : chunkPath outDir (trimExt nameBase) 0
      = joinPath outDir (tmpName (trimExt nameBase)) := by
    rw [chunkPath, if_pos rfl]
    exact htmp
  rw [splitWrites, hcp0, FS.write_nil]
  have hfresh0 : ∀ j, j < (chunkify (content.length / chunks + 1)
      (content.drop (content.length / chunks + 1))).length →
      ∀ e ∈ [(joinPath outDir (tmpName (trimExt nameBase)),
          content.take (content.length / chunks + 1))],
      e.1 ≠ joinPath outDir (fragName (trimExt nameBase) (1 + j)) := by
    intro j hj e he
    rw [List.mem_singleton] at he
    subst he
    show joinPath outDir (tmpName (trimExt nameBase)) ≠ _
    intro hcon
    exact tmpName_ne_fragName (trimExt nameBase) (by omega) (joinPath_inj hcon)
  rw [splitWrites_eq outDir (trimExt nameBase) _ 1 _ (by omega) hub' hfresh0]
  rw [List.singleton_append]
  rw [injectMetadata]
  have hrtmp : FS.read ((joinPath outDir (tmpName (trimExt nameBase)),
        content.take (content.length / chunks + 1)) ::
      pieceFiles outDir (trimExt nameBase) 1
        (chunkify (content.length / chunks + 1)
          (content.drop (content.length / chunks + 1))))
      (joinPath outDir (tmpName (trimExt nameBase)))
      = some (content.take (content.length / chunks + 1)) := by
    rw [FS.read_cons, if_pos rfl]
  simp only [hrtmp]
  have hdir := dirOf_join outDir (tmpName (trimExt nameBase))
    (slash_not_mem_tmpName hslash)
  have hbase := baseOf_join outDir (tmpName (trimExt nameBase))
    (slash_not_mem_tmpName hslash)
  have htrim : trimExt (tmpName (trimExt nameBase))
      = trimExt nameBase ++ 95 :: pad4 0 := by
    rw [show tmpName (trimExt nameBase)
        = (trimExt nameBase ++ 95 :: pad4 0) ++ dotB :: tmpStr from rfl]
    exact trimExt_append_dot (by decide)
  have hfrag0 : (trimExt nameBase ++ 95 :: pad4 0) ++ dotPartStr
      = fragName (trimExt nameBase) 0 := by
    rw [fragName]
    simp [List.append_assoc]
  rw [hdir, hbase, htrim, hfrag0]
  have hkeys : ∀ e ∈ (joinPath outDir (tmpName (trimExt nameBase)),
        content.take (content.length / chunks + 1)) ::
      pieceFiles outDir (trimExt nameBase) 1
        (chunkify (content.length / chunks + 1)
          (content.drop (content.length / chunks + 1))),
      e.1 ≠ joinPath outDir (fragName (trimExt nameBase) 0) := by
    intro e he
    rw [List.mem_cons] at he
    rcases he with he | he
    · subst he
      show joinPath outDir (tmpName (trimExt nameBase)) ≠ _
      intro hcon
      exact tmpName_ne_fragName (trimExt nameBase) (by omega)
        (joinPath_inj hcon)
    · obtain ⟨j, hj, hkey⟩ := pieceFiles_keys outDir (trimExt nameBase) _ 1 e he
      rw [hkey]
      intro hcon
      have h3 := @fragName_inj (trimExt nameBase) (1 + j) 0
        (by omega) (by omega) (joinPath_inj hcon)
      omega
  rw [FS.write_fresh _ _ _ hkeys]
  have hread2 : FS.read (((joinPath outDir (tmpName (trimExt nameBase)),
        content.take (content.length / chunks + 1)) ::
      pieceFiles outDir (trimExt nameBase) 1
        (chunkify (content.length / chunks + 1)
          (content.drop (content.length / chunks + 1)))) ++
      [(joinPath outDir (fragName (trimExt nameBase) 0), [])])
      (joinPath outDir (tmpName (trimExt nameBase)))
      = some (content.take (content.length / chunks + 1)) := by
    rw [List.cons_append, FS.read_cons, if_pos rfl]
  rw [hread2]
  rw [show (some (content.take (content.length / chunks + 1))).getD []
      = content.take (content.length / chunks + 1) from rfl]
  rw [FS.write_last _ _ _ _ hkeys]
  congr 1
  rw [List.cons_append, FS.remove_cons, if_pos rfl, FS.remove,
    List.filter_append]
  have h1 : (pieceFiles outDir (trimExt nameBase) 1
      (chunkify (content.length / chunks + 1)
        (content.drop (content.length / chunks + 1)))).filter
      (fun e => e.1 ≠ joinPath outDir (tmpName (trimExt nameBase))) =
      pieceFiles outDir (trimExt nameBase) 1
        (chunkify (content.length / chunks + 1)
          (content.drop (content.length / chunks + 1))) := by
    apply List.filter_eq_self.mpr
    intro e he
    obtain ⟨j, hj, hkey⟩ := pieceFiles_keys outDir (trimExt nameBase) _ 1 e he
    simp only [hkey, ne_eq, decide_eq_true_eq]
    intro hcon
    exact tmpName_ne_fragName (trimExt nameBase) (i := 1 + j) (by omega)
      (joinPath_inj hcon).symm
  have h2 : List.filter
      (fun e => e.1 ≠ joinPath outDir (tmpName (trimExt nameBase)))
      [(joinPath outDir (fragName (trimExt nameBase) 0),
        encodeMeta (splitMeta hashFn now content nameBase chunks) ++
          content.take (content.length / chunks + 1))]
      = [(joinPath outDir (fragName (trimExt nameBase) 0),
        encodeMeta (splitMeta hashFn now content nameBase chunks) ++
          content.take (content.length / chunks + 1))] := by
    apply List.filter_eq_self.mpr
    intro e he
    rw [List.mem_singleton] at he
    subst he
    simp only [ne_eq, decide_eq_true_eq]
    intro hcon
    exact tmpName_ne_fragName (trimExt nameBase) (i := 0) (by omega)
      (joinPath_inj hcon).symm
  rw [show metadata.mk (hashFn content) (chunks % 2 ^ 32)
      ((content.length : Int)) now (truncPad 46 0 nameBase)
      = splitMeta hashFn now content nameBase chunks from rfl]
  rw [h1, h2, fragmentFS]

/-! ### First-occurrence analysis of the `"part"` → `"tmp"` replacement -/

theorem prefix_append_sep {pat : Bytes} {c : Nat} (hc : c ∉ pat) :
    ∀ (a b : Bytes), pat <+: (a ++ c :: b) ↔ pat <+: a := by
  induction pat with
  | nil =>
    intro a b
    simp
  | cons p pat ih =>
    intro a b
    cases a with
    | nil =>
      simp only [List.nil_append, List.cons_prefix_cons, List.prefix_nil]
      constructor
      · intro ⟨h1, _⟩
        exact absurd (h1 ▸ List.mem_cons_self p pat) hc
      · intro h
        simp at h
    | cons x a =>
      rw [List.cons_append, List.cons_prefix_cons, List.cons_prefix_cons,
        ih (fun hm => hc (List.mem_cons_of_mem p hm)) a b]

theorem infix_cons_decomp {pat : Bytes} {x : Nat} {s : Bytes}
    (h : pat <:+: (x :: s)) : pat <+: (x :: s) ∨ pat <:+: s := by
  obtain ⟨u, v, huv⟩ := h
  cases u with
  | nil =>
    left
    exact ⟨v, by simpa using huv⟩
  | cons y u =>
    right
    refine ⟨u, v, ?_⟩
    have := huv
    rw [List.cons_append, List.cons_append] at this
    exact List.tail_eq_of_cons_eq this

theorem infix_append_sep {pat : Bytes} {c : Nat} (hc : c ∉ pat) (u v : Bytes) :
    pat <:+: (u ++ c :: v) ↔ pat <:+: u ∨ pat <:+: v := by
  constructor
  · intro h
    obtain ⟨x, y, hxy⟩ := h
    rcases le_or_lt (x.length + pat.length) u.length with h1 | h1
    · left
      have ht : (x ++ pat ++ y).take (x.length + pat.length) = x ++ pat :=
        List.take_left' (by simp)
      have ht2 : (u ++ c :: v).take (x.length + pat.length)
          = u.take (x.length + pat.length) := List.take_append_of_le_length h1
      rw [hxy, ht2] at ht
      refine ⟨x, u.drop (x.length + pat.length), ?_⟩
      rw [← ht, List.take_append_drop]
    · rcases le_or_lt (u.length + 1) x.length with h2 | h2
      · right
        have hd : (x ++ pat ++ y).drop (u.length + 1)
            = x.drop (u.length + 1) ++ pat ++ y := by
          rw [List.append_assoc, List.drop_append_of_le_length h2,
            ← List.append_assoc]
        have hd2 : (u ++ c :: v).drop (u.length + 1) = v := by
          rw [show u ++ c :: v = (u ++ [c]) ++ v by simp,
            List.drop_left' (by simp)]
        rw [hxy, hd2] at hd
        exact ⟨x.drop (u.length + 1), y, hd.symm⟩
      · exfalso
        have hx1 : x.length ≤ u.length := by omega
        have hm : u.length - x.length < pat.length := by omega
        have hR : (u ++ c :: v)[u.length]? = some c := by
          rw [List.getElem?_append_right (le_refl _)]
          simp
        have hL : (x ++ pat ++ y)[u.length]?
            = pat[u.length - x.length]? := by
          rw [List.append_assoc, List.getElem?_append_right hx1,
            List.getElem?_append, if_pos hm]
        rw [hxy, hR] at hL
        have hce : pat[u.length - x.length]? = some c := hL.symm
        rw [List.getElem?_eq_getElem hm] at hce
        exact hc ((Option.some_injective _ hce) ▸ List.getElem_mem hm)
  · intro h
    rcases h with ⟨x, y, hxy⟩ | ⟨x, y, hxy⟩
    · exact ⟨x, y ++ c :: v, by rw [← hxy]; simp⟩
    · exact ⟨u ++ c :: x, y, by rw [← hxy]; simp⟩

theorem replaceFirst_prefix_case {pat rep s : Bytes} (hpat : pat ≠ [])
    (h : pat.isPrefixOf s = true) :
    replaceFirst pat rep s = rep ++ s.drop pat.length := by
  cases s with
  | nil =>
    rw [List.isPrefixOf_iff_prefix, List.prefix_nil] at h
    exact absurd h hpat
  | cons x s => rw [replaceFirst, if_pos h]

theorem replaceFirst_cons_neg {pat rep : Bytes} {x : Nat} {s : Bytes}
    (h : ¬ pat <+: (x :: s)) :
    replaceFirst pat rep (x :: s) = x :: replaceFirst pat rep s := by
  rw [replaceFirst, if_neg (by rwa [List.isPrefixOf_iff_prefix])]

theorem not_prefix_marked {pat : Bytes} {c : Nat} (hc : c ∉ pat)
    {A w : Bytes} (hn : ¬ pat <:+: (A ++ [c])) :
    ¬ pat <+: ((A ++ [c]) ++ w) := by
  intro hp
  rcases le_or_lt pat.length (A ++ [c]).length with hl | hl
  · have hp2 : pat <+: (A ++ [c]) :=
      List.prefix_of_prefix_length_le hp ⟨w, rfl⟩ hl
    exact hn hp2.isInfix
  · have hlt : A.length < pat.length := by
      simp only [List.length_append, List.length_singleton] at hl
      omega
    have hidx : ((A ++ [c]) ++ w)[A.length]? = some c := by
      rw [List.getElem?_append, if_pos (by simp)]
      rw [List.getElem?_append_right (le_refl _)]
      simp
    obtain ⟨t, ht⟩ := hp
    have hidx2 : (pat ++ t)[A.length]? = pat[A.length]? := by
      rw [List.getElem?_append, if_pos hlt]
    rw [ht, hidx] at hidx2
    have hce : pat[A.length]? = some c := hidx2.symm
    rw [List.getElem?_eq_getElem hlt] at hce
    exact hc ((Option.some_injective _ hce) ▸ List.getElem_mem hlt)

theorem replaceFirst_marked {pat rep : Bytes} {c : Nat} (hc : c ∉ pat)
    (hpat : pat ≠ []) :
    ∀ (a b : Bytes), ¬ (pat <:+: (a ++ [c])) →
    replaceFirst pat rep ((a ++ [c]) ++ pat ++ b) = (a ++ [c]) ++ rep ++ b := by
  intro a
  induction a with
  | nil =>
    intro b hn
    have hs : (([] : Bytes) ++ [c]) ++ pat ++ b = c :: (pat ++ b) := by simp
    rw [hs]
    have hnp : ¬ pat <+: (c :: (pat ++ b)) := by
      intro hp
      cases pat with
      | nil => exact hpat rfl
      | cons p pat' =>
        rw [List.cons_prefix_cons] at hp
        exact hc (by simp [hp.1])
    rw [replaceFirst_cons_neg hnp]
    rw [replaceFirst_prefix_case hpat (by
      rw [List.isPrefixOf_iff_prefix]
      exact ⟨b, rfl⟩)]
    rw [List.drop_left]
    simp
  | cons x a ih =>
    intro b hn
    have hn' : ¬ pat <:+: (a ++ [c]) := by
      intro hna
      apply hn
      have h2 := List.infix_cons (a := x) hna
      simpa using h2
    have hs : ((x :: a) ++ [c]) ++ pat ++ b = x :: ((a ++ [c]) ++ pat ++ b) := by
      simp
    rw [hs]
    have hnp : ¬ pat <+: (x :: ((a ++ [c]) ++ pat ++ b)) := by
      intro hp
      apply not_prefix_marked hc (A := x :: a) (w := pat ++ b) hn
      have hsh : ((x :: a) ++ [c]) ++ (pat ++ b)
          = x :: ((a ++ [c]) ++ pat ++ b) := by simp
      rwa [hsh]
    rw [replaceFirst_cons_neg hnp, ih b hn']
    simp

theorem replaceFirst_sep_left {pat rep : Bytes} {c : Nat} (hc : c ∉ pat)
    (hpat : pat ≠ []) :
    ∀ (a b : Bytes), pat <:+: a →
    replaceFirst pat rep (a ++ c :: b) = replaceFirst pat rep a ++ c :: b := by
  intro a
  induction a with
  | nil =>
    intro b h
    rw [List.infix_nil] at h
    exact absurd h hpat
  | cons x a ih =>
    intro b h
    by_cases hp : pat <+: (x :: a)
    · have hple : pat.length ≤ (x :: a).length := hp.length_le
      have hp2 : pat.isPrefixOf ((x :: a) ++ c :: b) = true := by
        rw [List.isPrefixOf_iff_prefix]
        exact hp.trans (List.prefix_append _ _)
      rw [replaceFirst_prefix_case hpat hp2]
      rw [replaceFirst_prefix_case hpat (by rwa [List.isPrefixOf_iff_prefix])]
      rw [List.drop_append_of_le_length hple]
      simp
    · have hp2 : ¬ pat <+: ((x :: a) ++ c :: b) := by
        intro hcon
        exact hp ((prefix_append_sep hc _ _).mp hcon)
      have ha : pat <:+: a := by
        rcases infix_cons_decomp h with hh | hh
        · exact absurd hh hp
        · exact hh
      rw [show (x :: a) ++ c :: b = x :: (a ++ c :: b) from rfl]
      rw [replaceFirst_cons_neg (by rwa [show x :: (a ++ c :: b)
          = (x :: a) ++ c :: b from rfl])]
      rw [ih b ha, replaceFirst_cons_neg hp]
      rfl

/-- With `"part"`-free directory and stem, the tmp replacement of the first
chunk lands exactly on the `.part` extension. -/
theorem replaceFirst_frag0 (outDir stem : Bytes)
    (h1 : ¬ partStr <:+: outDir) (h2 : ¬ partStr <:+: stem) :
    replaceFirst partStr tmpStr (joinPath outDir (fragName stem 0))
      = joinPath outDir (tmpName stem) := by
  have hshape : joinPath outDir (fragName stem 0)
      = ((outDir ++ slashB :: (stem ++ 95 :: pad4 0)) ++ [dotB]) ++
          partStr ++ [] := by
    rw [joinPath, fragName]
    rw [show dotPartStr = dotB :: partStr from rfl]
    simp
  have hnotin : ¬ partStr <:+:
      ((outDir ++ slashB :: (stem ++ 95 :: pad4 0)) ++ [dotB]) := by
    rw [show ((outDir ++ slashB :: (stem ++ 95 :: pad4 0)) ++ [dotB])
        = (outDir ++ slashB :: (stem ++ 95 :: pad4 0)) ++ dotB :: [] from rfl]
    rw [infix_append_sep (by decide) _ _]
    rintro (h | h)
    · rw [infix_append_sep (by decide) _ _] at h
      rcases h with h | h
      · exact h1 h
      · rw [infix_append_sep (by decide) _ _] at h
        rcases h with h | h
        · exact h2 h
        · exact absurd h (by decide)
    · exact absurd h (by decide)
  rw [hshape, replaceFirst_marked (by decide) (by decide) _ [] hnotin]
  rw [joinPath, tmpName]
  rw [show dotTmpStr = dotB :: tmpStr from rfl]
  simp

/-! ### Recovering the output name from the padded header field -/

theorem dropWhile_dot_cons (l : Bytes) (h : dotB ∈ l) :
    ∃ t, l.dropWhile (· ≠ dotB) = dotB :: t := by
  induction l with
  | nil => simp at h
  | cons x xs ih =>
    by_cases hx : x = dotB
    · subst hx
      exact ⟨xs, by simp [List.dropWhile_cons]⟩
    · rw [List.mem_cons] at h
      rcases h with h | h
      · exact absurd h.symm hx
      · obtain ⟨t, ht⟩ := ih h
        refine ⟨t, ?_⟩
        simp only [List.dropWhile_cons]
        simp [hx]
        simpa using ht

theorem trimExt_decomp {b : Bytes} (h : dotB ∈ b) :
    ∃ e, dotB ∉ e ∧ b = trimExt b ++ dotB :: e := by
  have hrev : dotB ∈ b.reverse := List.mem_reverse.mpr h
  obtain ⟨t, ht⟩ := dropWhile_dot_cons b.reverse hrev
  refine ⟨(b.reverse.takeWhile (· ≠ dotB)).reverse, ?_, ?_⟩
  · intro hc
    have h2 := List.mem_takeWhile_imp (List.mem_reverse.mp hc)
    simp at h2
  · have hsplit := List.takeWhile_append_dropWhile (· ≠ dotB) b.reverse
    rw [trimExt, if_pos h, ht]
    have h3 : ((dotB :: t).drop 1).reverse ++
        dotB :: (b.reverse.takeWhile (· ≠ dotB)).reverse
        = (b.reverse.takeWhile (· ≠ dotB) ++ b.reverse.dropWhile (· ≠ dotB)).reverse := by
      rw [ht, List.reverse_append]
      simp
    rw [h3, hsplit, List.reverse_reverse]

theorem mem_of_mem_trimExt {x : Nat} {b : Bytes} (h : x ∈ trimExt b) : x ∈ b := by
  by_cases hd : dotB ∈ b
  · obtain ⟨e, _, heq⟩ := trimExt_decomp hd
    rw [heq]
    exact List.mem_append_left _ h
  · rwa [trimExt_of_not_mem hd] at h

theorem trimByte_truncPad (n : Nat) (nameBase : Bytes) (h : 0 ∉ nameBase) :
    trimByte 0 (truncPad n 0 nameBase) = nameBase.take n := by
  rw [truncPad]
  exact trimByte_append_replicate 0 _ _ (fun hc => h (List.mem_of_mem_take hc))

theorem fragName_take46_ne (nameBase : Bytes) (i : Nat) :
    fragName (trimExt nameBase) i ≠ nameBase.take 46 := by
  intro hcon
  have h1 := congrArg (fun l => l[(trimExt nameBase).length]?) hcon
  simp only at h1
  have hL : (fragName (trimExt nameBase) i)[(trimExt nameBase).length]? = some 95 := by
    rw [fragName, List.getElem?_append_right (le_refl _), Nat.sub_self]
    exact List.getElem?_cons_zero
  rw [hL, List.getElem?_take] at h1
  by_cases hd : dotB ∈ nameBase
  · obtain ⟨e, he, heq⟩ := trimExt_decomp hd
    have hR : nameBase[(trimExt nameBase).length]? = some dotB := by
      rw [heq, trimExt_append_dot he]
      rw [List.getElem?_append_right (le_refl _), Nat.sub_self]
      exact List.getElem?_cons_zero
    rw [hR] at h1
    by_cases hlt : (trimExt nameBase).length < 46
    · rw [if_pos hlt] at h1
      exact absurd (Option.some_injective _ h1) (by decide)
    · rw [if_neg hlt] at h1
      exact Option.noConfusion h1
  · rw [trimExt_of_not_mem hd] at h1
    rw [List.getElem?_eq_none (le_refl _)] at h1
    by_cases hlt : nameBase.length < 46
    · rw [if_pos hlt] at h1
      exact Option.noConfusion h1
    · rw [if_neg hlt] at h1
      exact Option.noConfusion h1

/-! ### Counting the files a split writes -/

theorem pieceFiles_length (outDir stem : Bytes) :
    ∀ (i : Nat) (ps : List Bytes), (pieceFiles outDir stem i ps).length = ps.length := by
  intro i ps
  induction ps generalizing i with
  | nil => rfl
  | cons p rest ih => simp only [pieceFiles, List.length_cons, ih]

theorem fragmentFS_length (outDir stem : Bytes) (meta : metadata)
    (pieces : List Bytes) :
    (fragmentFS outDir stem meta pieces).length = pieces.length := by
  cases pieces with
  | nil => rfl
  | cons p0 rest =>
    simp [fragmentFS, pieceFiles_length]

/-! ### The partition SplitData computes (loop body of lines 262-285) -/

/-- The chunk size of `SplitData` (lines 262-267). -/
def partSizeOf (len chunks : Nat) : Nat :=
  if len / chunks = 0 ∧ len > 0 then 1 else len / chunks

/-- The byte range the `SplitData` loop stores at index `i`
(lines 270-285). -/
def splitSeg (d : Bytes) (chunks i : Nat) : Bytes :=
  let partSize := partSizeOf d.length chunks
  let start := i * partSize
  let e1 := start + partSize
  let e2 := if i = chunks - 1 ∨ e1 > d.length then d.length else e1
  if start ≥ d.length then []
  else (d.drop start).take (e2 - start)

theorem SplitData_ok (d : Bytes) (chunks : Nat) (h2 : 2 ≤ chunks) :
    SplitData d chunks chunks
      = Except.ok ((List.range chunks).map (splitSeg d chunks)) := by
  rw [SplitData, if_neg (by omega), if_neg (by simp)]
  rfl

theorem partSizeOf_pos {len : Nat} (chunks : Nat) (h : 0 < len) :
    0 < partSizeOf len chunks := by
  rw [partSizeOf]
  by_cases hq : len / chunks = 0
  · rw [if_pos ⟨hq, h⟩]
    decide
  · rw [if_neg (fun hc => hq hc.1)]
    exact Nat.pos_of_ne_zero hq

theorem partSizeOf_eq_zero {len chunks : Nat} (h : partSizeOf len chunks = 0) :
    len = 0 := by
  by_cases hl : 0 < len
  · exact absurd h (by have := partSizeOf_pos chunks hl; omega)
  · omega

theorem splitSeg_beyond (d : Bytes) (chunks i : Nat)
    (h : d.length ≤ i * partSizeOf d.length chunks) : splitSeg d chunks i = [] := by
  simp only [splitSeg]
  rw [if_pos (show i * partSizeOf d.length chunks ≥ d.length from h)]

theorem splitSeg_middle (d : Bytes) (chunks i : Nat) (hi : i + 1 < chunks)
    (hle : (i + 1) * partSizeOf d.length chunks ≤ d.length) :
    (splitSeg d chunks i).length = partSizeOf d.length chunks := by
  have hmul : (i + 1) * partSizeOf d.length chunks
      = i * partSizeOf d.length chunks + partSizeOf d.length chunks :=
    Nat.succ_mul i _
  by_cases hp0 : partSizeOf d.length chunks = 0
  · have hd0 : d.length = 0 := partSizeOf_eq_zero hp0
    rw [splitSeg_beyond d chunks i (by omega), hp0]
    rfl
  · have hppos : 0 < partSizeOf d.length chunks := by omega
    rw [hmul] at hle
    simp only [splitSeg]
    rw [if_neg (show ¬ i * partSizeOf d.length chunks ≥ d.length from by omega)]
    rw [if_neg (show ¬ (i = chunks - 1 ∨
        i * partSizeOf d.length chunks + partSizeOf d.length chunks > d.length)
      from by rintro (h | h) <;> omega)]
    rw [List.length_take, List.length_drop]
    omega

theorem splitSeg_last (d : Bytes) (chunks : Nat) :
    splitSeg d chunks (chunks - 1)
      = d.drop ((chunks - 1) * partSizeOf d.length chunks) := by
  simp only [splitSeg]
  rw [if_pos (Or.inl trivial)]
  by_cases hsL : d.length ≤ (chunks - 1) * partSizeOf d.length chunks
  · rw [if_pos (show (chunks - 1) * partSizeOf d.length chunks ≥ d.length from hsL)]
    rw [List.drop_eq_nil_of_le hsL]
  · rw [if_neg (show ¬ (chunks - 1) * partSizeOf d.length chunks ≥ d.length from hsL)]
    rw [List.take_of_length_le (by rw [List.length_drop])]

theorem splitSeg_flatten_aux (d : Bytes) (chunks : Nat) :
    ∀ m, m < chunks →
      ((List.range m).map (splitSeg d chunks)).flatten
        = d.take (min (m * partSizeOf d.length chunks) d.length) := by
  intro m
  induction m with
  | zero =>
    intro _
    simp
  | succ m ih =>
    intro hm
    rw [List.range_succ, List.map_append, List.flatten_append, ih (by omega),
        List.map_singleton, List.flatten_cons, List.flatten_nil, List.append_nil]
    have hmul : (m + 1) * partSizeOf d.length chunks
        = m * partSizeOf d.length chunks + partSizeOf d.length chunks :=
      Nat.succ_mul m _
    by_cases hL : d.length ≤ m * partSizeOf d.length chunks
    · rw [splitSeg_beyond d chunks m hL]
      have h1 : min (m * partSizeOf d.length chunks) d.length = d.length := by omega
      have h2 : min ((m + 1) * partSizeOf d.length chunks) d.length = d.length := by
        omega
      rw [h1, h2, List.append_nil]
    · have hseg : splitSeg d chunks m
          = (d.drop (m * partSizeOf d.length chunks)).take
            ((if m * partSizeOf d.length chunks + partSizeOf d.length chunks > d.length
              then d.length
              else m * partSizeOf d.length chunks + partSizeOf d.length chunks)
             - m * partSizeOf d.length chunks) := by
        simp only [splitSeg]
        rw [if_neg (show ¬ m * partSizeOf d.length chunks ≥ d.length from hL)]
        congr 2
        by_cases he : m * partSizeOf d.length chunks + partSizeOf d.length chunks
            > d.length
        · rw [if_pos (Or.inr he), if_pos he]
        · rw [if_neg ?_, if_neg he]
          rintro (hc | hc)
          · subst hc
            omega
          · exact he hc
      have h1 : min (m * partSizeOf d.length chunks) d.length
          = m * partSizeOf d.length chunks := by omega
      rw [hseg, h1]
      by_cases he : m * partSizeOf d.length chunks + partSizeOf d.length chunks
          > d.length
      · rw [if_pos he]
        have h2 : min ((m + 1) * partSizeOf d.length chunks) d.length = d.length := by
          omega
        rw [h2]
        rw [List.take_of_length_le
            (l := d.drop (m * partSizeOf d.length chunks)) (by rw [List.length_drop])]
        rw [List.take_append_drop, List.take_length]
      · rw [if_neg he]
        have h2 : min ((m + 1) * partSizeOf d.length chunks) d.length
            = m * partSizeOf d.length chunks
              + (m * partSizeOf d.length chunks + partSizeOf d.length chunks
                 - m * partSizeOf d.length chunks) := by omega
        rw [h2, List.take_add]

theorem splitSeg_flatten (d : Bytes) (chunks : Nat) (h1 : 1 ≤ chunks) :
    ((List.range chunks).map (splitSeg d chunks)).flatten = d := by
  have hsplitr : List.range chunks = List.range (chunks - 1) ++ [chunks - 1] := by
    conv_lhs => rw [show chunks = (chunks - 1) + 1 from by omega]
    rw [List.range_succ]
  rw [hsplitr, List.map_append, List.flatten_append,
      splitSeg_flatten_aux d chunks (chunks - 1) (by omega),
      List.map_singleton, List.flatten_cons, List.flatten_nil, List.append_nil,
      splitSeg_last d chunks]
  by_cases hs : (chunks - 1) * partSizeOf d.length chunks ≤ d.length
  · rw [min_eq_left hs, List.take_append_drop]
  · have h2 : min ((chunks - 1) * partSizeOf d.length chunks) d.length
        = d.length := by omega
    rw [h2, List.take_length, List.drop_eq_nil_of_le (by omega), List.append_nil]

/-! ### Failure mode of the tmp replacement when `"part"` occurs earlier -/

theorem replaceFirst_frag0_ne (outDir stem : Bytes)
    (h : partStr <:+: outDir ∨ partStr <:+: stem) :
    replaceFirst partStr tmpStr (joinPath outDir (fragName stem 0))
      ≠ joinPath outDir (tmpName stem) := by
  have hinfix : partStr <:+: (outDir ++ slashB :: (stem ++ 95 :: pad4 0)) := by
    rcases h with h | h
    · exact (infix_append_sep (by decide) _ _).mpr (Or.inl h)
    · exact (infix_append_sep (by decide) _ _).mpr
        (Or.inr ((infix_append_sep (by decide) _ _).mpr (Or.inl h)))
  intro hcon
  have hshape : joinPath outDir (fragName stem 0)
      = (outDir ++ slashB :: (stem ++ 95 :: pad4 0)) ++ dotB :: partStr := by
    rw [joinPath, fragName, show dotPartStr = dotB :: partStr from rfl]
    simp
  rw [hshape,
      replaceFirst_sep_left (by decide) (by decide) _ partStr hinfix] at hcon
  have hshape2 : joinPath outDir (tmpName stem)
      = (outDir ++ slashB :: (stem ++ 95 :: pad4 0)) ++ dotB :: tmpStr := by
    rw [joinPath, tmpName, show dotTmpStr = dotB :: tmpStr from rfl]
    simp
  rw [hshape2] at hcon
  have h1 := congrArg List.getLast? hcon
  rw [List.getLast?_append, List.getLast?_append] at h1
  have h2 : ((dotB :: partStr).getLast?).or
      ((replaceFirst partStr tmpStr
        (outDir ++ slashB :: (stem ++ 95 :: pad4 0))).getLast?) = some 116 := rfl
  have h3 : ((dotB :: tmpStr).getLast?).or
      ((outDir ++ slashB :: (stem ++ 95 :: pad4 0)).getLast?) = some 112 := rfl
  rw [h2, h3] at h1
  exact absurd (Option.some_injective _ h1) (by decide)

/-! ## The claims

Concrete fixtures used by the witness theorems.  `testHash` is an
executable stand-in for the SHA-256 oracle: the model treats the hash as
an abstract function, and every general theorem is stated for an
arbitrary `hashFn`. -/

instance {e a : Type} [DecidableEq e] [DecidableEq a] : DecidableEq (Except e a) :=
  fun x y =>
    match x, y with
    | .error e1, .error e2 =>
      if h : e1 = e2 then isTrue (by rw [h]) else isFalse (by simp [h])
    | .ok v1, .ok v2 =>
      if h : v1 = v2 then isTrue (by rw [h]) else isFalse (by simp [h])
    | .error _, .ok _ => isFalse (by simp)
    | .ok _, .error _ => isFalse (by simp)

def testHash (b : Bytes) : Bytes := List.replicate 31 7 ++ [(b.length + b.sum) % 256]

theorem testHash_length (b : Bytes) : (testHash b).length = 32 := by
  simp [testHash]

def metaC2 : metadata :=
  { Hash := List.replicate 32 0
  , Total := 2
  , Size := 3
  , Time := 9
  , Name := truncPad 46 0 [98] }

def metaC9 : metadata :=
  { Hash := List.replicate 32 0
  , Total := 7
  , Size := -5
  , Time := 123
  , Name := truncPad 46 0 [98] }

/-- Claim C1 (corrected): the round trip does NOT succeed for every length
`L ≥ 0` — for empty content `SplitFile` writes no chunk, leaves
`firstChunk` empty and fails inside `injectMetadata` on `os.Open("")`
(split.go lines 95-119, 342-345), so there is nothing to merge. -/
theorem splitFile_empty_content_fails :
    SplitFile testHash 0 [] [] [97, 46, 116, 120, 116] [111] 2
      = Except.error "failed to open source chunk file" := by
  decide

/-- Claim C1 (amended): for nonempty content, a requested count
`2 ≤ C ≤ 10000`, a base name free of NUL and `/` and a `"part"`-free
output directory and stem, splitting into `C` chunks and merging the
fragment directory succeeds and reproduces the content byte-identically;
the reconstructed file is created under the original base name truncated
to 46 bytes (the NUL padding of the header field is trimmed back off). -/
theorem splitFile_mergeFile_roundtrip (hashFn : Bytes → Bytes) (now : Int)
    (content nameBase outDir : Bytes) (chunks : Nat)
    (hC : 2 ≤ chunks) (hCub : chunks ≤ 10000) (hcontent : content ≠ [])
    (hhash : ∀ b, (hashFn b).length = 32)
    (hnow1 : -(2 ^ 63) ≤ now) (hnow2 : now < 2 ^ 63)
    (hsize : (content.length : Int) < 2 ^ 63)
    (hname0 : 0 ∉ nameBase) (hslash : slashB ∉ nameBase)
    (hpartD : ¬ partStr <:+: outDir) (hpartN : ¬ partStr <:+: trimExt nameBase) :
    ∃ fs, SplitFile hashFn now [] content nameBase outDir chunks = Except.ok fs ∧
      (MergeFile hashFn fs outDir).2 = none ∧
      (MergeFile hashFn fs outDir).1.read (joinPath outDir (nameBase.take 46))
        = some content := by
  have hslashS : slashB ∉ trimExt nameBase :=
    fun hmem => hslash (mem_of_mem_trimExt hmem)
  have hsz : 0 < content.length / chunks + 1 := Nat.succ_pos _
  have hub : (chunkify (content.length / chunks + 1) content).length ≤ 10000 := by
    rw [chunkify_length _ hsz]
    exact le_trans (chunkify_count_le content.length chunks (by omega)) hCub
  have htmp := replaceFirst_frag0 outDir (trimExt nameBase) hpartD hpartN
  have hok := splitFile_spec hashFn now content nameBase outDir chunks
    hC hcontent hslashS hub htmp
  have hWF : (splitMeta hashFn now content nameBase chunks).WF := by
    refine ⟨hhash content, Nat.mod_lt _ (by norm_num), ?_, hsize, hnow1, hnow2,
      truncPad_length _ _ _⟩
    show -(2 ^ 63 : Int) ≤ (content.length : Int)
    have h0 : (0 : Int) ≤ (content.length : Int) := Int.natCast_nonneg _
    have he : (0 : Int) ≤ 2 ^ 63 := by norm_num
    omega
  have hout : ∀ i, i < (chunkify (content.length / chunks + 1) content).length →
      fragName (trimExt nameBase) i
        ≠ trimByte 0 (splitMeta hashFn now content nameBase chunks).Name := by
    intro i _
    rw [show (splitMeta hashFn now content nameBase chunks).Name
        = truncPad 46 0 nameBase from rfl]
    rw [trimByte_truncPad 46 nameBase hname0]
    exact fragName_take46_ne nameBase i
  have hne : chunkify (content.length / chunks + 1) content ≠ [] := by
    rw [chunkify_cons (content.length / chunks + 1) content hcontent
      (Nat.succ_ne_zero _)]
    exact List.cons_ne_nil _ _
  obtain ⟨hm1, hm2, _, _⟩ := mergeFile_fragmentFS hashFn outDir (trimExt nameBase)
    (splitMeta hashFn now content nameBase chunks)
    (chunkify (content.length / chunks + 1) content) hslashS hne hub hWF hout
  have hflat : (chunkify (content.length / chunks + 1) content).flatten = content :=
    chunkify_flatten _ hsz content
  rw [hflat] at hm1 hm2
  refine ⟨_, hok, ?_, ?_⟩
  · rw [hm1, if_pos (show hashFn content
        = (splitMeta hashFn now content nameBase chunks).Hash from rfl)]
  · rw [show (splitMeta hashFn now content nameBase chunks).Name
        = truncPad 46 0 nameBase from rfl,
      trimByte_truncPad 46 nameBase hname0] at hm2
    exact hm2

set_option maxRecDepth 8000 in
/-- Witness for the amended C1 at a concrete input: a 5-byte file named
`ab.txt` split into 2 chunks in directory `o` and merged back. -/
theorem splitFile_mergeFile_roundtrip_witness :
    ∃ fs, SplitFile testHash 0 [] [1, 2, 3, 4, 5] [97, 98, 46, 116, 120, 116]
        [111] 2 = Except.ok fs ∧
      (MergeFile testHash fs [111]).2 = none ∧
      (MergeFile testHash fs [111]).1.read
          (joinPath [111] ([97, 98, 46, 116, 120, 116].take 46))
        = some [1, 2, 3, 4, 5] :=
  splitFile_mergeFile_roundtrip testHash 0 [1, 2, 3, 4, 5]
    [97, 98, 46, 116, 120, 116] [111] 2 (by decide) (by decide) (by decide)
    testHash_length (by decide) (by decide) (by decide) (by decide) (by decide)
    (by decide) (by decide)

/-- Claim C2 (confirmed): merging a complete fragment layout whose stored
hash does not match the recomputed hash of the fragment data — which is
what flipping any non-header byte produces, SHA-256 collisions aside —
fails with the integrity error and deletes no fragment file; and a
fragment file is gone after the merge only when the recomputed hash
equalled the stored one (the fully verified success path, split.go lines
214-224). -/
theorem mergeFile_fail_closed (hashFn : Bytes → Bytes) (outDir stem : Bytes)
    (meta : metadata) (pieces : List Bytes)
    (hstem : slashB ∉ stem) (h0 : pieces ≠ []) (hub : pieces.length ≤ 10000)
    (hWF : meta.WF)
    (hout : ∀ i, i < pieces.length → fragName stem i ≠ trimByte 0 meta.Name) :
    (hashFn pieces.flatten ≠ meta.Hash →
      (MergeFile hashFn (fragmentFS outDir stem meta pieces) outDir).2
        = some "hash mismatch: file not reconstructed properly" ∧
      ∀ i, i < pieces.length →
        (MergeFile hashFn (fragmentFS outDir stem meta pieces) outDir).1.read
            (joinPath outDir (fragName stem i))
          = some (fragContent meta pieces i)) ∧
    (∀ i, i < pieces.length →
      (MergeFile hashFn (fragmentFS outDir stem meta pieces) outDir).1.read
          (joinPath outDir (fragName stem i)) = none →
      hashFn pieces.flatten = meta.Hash) := by
  obtain ⟨hm1, _, hm3, _⟩ :=
    mergeFile_fragmentFS hashFn outDir stem meta pieces hstem h0 hub hWF hout
  constructor
  · intro hne
    constructor
    · rw [hm1, if_neg hne]
    · intro i hi
      rw [hm3 i hi, if_neg hne]
  · intro i hi hnone
    by_contra hne
    rw [hm3 i hi, if_neg hne] at hnone
    exact Option.noConfusion hnone

set_option maxRecDepth 8000 in
/-- Witness for C2: a two-fragment layout in directory `d` whose header
hash (32 zero bytes) does not match the recomputed hash; the merge
reports the integrity error and both fragment files survive. -/
theorem mergeFile_fail_closed_witness :
    (MergeFile testHash (fragmentFS [100] [97] metaC2 [[1], [2]]) [100]).2
      = some "hash mismatch: file not reconstructed properly" ∧
    (MergeFile testHash (fragmentFS [100] [97] metaC2 [[1], [2]]) [100]).1.read
        (joinPath [100] (fragName [97] 0)) = some (fragContent metaC2 [[1], [2]] 0) ∧
    (MergeFile testHash (fragmentFS [100] [97] metaC2 [[1], [2]]) [100]).1.read
        (joinPath [100] (fragName [97] 1)) = some (fragContent metaC2 [[1], [2]] 1) := by
  have h := (mergeFile_fail_closed testHash [100] [97] metaC2 [[1], [2]]
    (by decide) (by decide) (by decide) (by decide) (by decide)).1 (by decide)
  exact ⟨h.1, h.2 0 (by decide), h.2 1 (by decide)⟩

set_option maxRecDepth 8000 in
/-- Claim C3 (corrected): the Total field does NOT always equal the number
of fragment files actually written.  Splitting 5 bytes into 4 requested
chunks uses buffer size `5/4+1 = 2` and writes only 3 fragment files, yet
the header of fragment 0 stores `Total = uint32(4)` (split.go line 86
stores the requested count before the write loop runs). -/
theorem total_field_mismatch_cex :
    (SplitFile testHash 0 [] [1, 2, 3, 4, 5] [101, 46, 116] [111] 4).map
        (fun fs => (fs.length,
          ((fs.read (joinPath [111] (fragName [101] 0))).bind decodeMeta).map
            metadata.Total))
      = Except.ok (3, some 4) ∧ (3 : Nat) ≠ 4 := by
  constructor
  · decide
  · decide

/-- Claim C3 (amended): the Total field of fragment 0 stores
`uint32(chunks)`, the REQUESTED count (wrapped modulo `2^32`), while the
number of fragment files a successful split writes is
`ceil(L / (floor(L/C)+1))`; the two can differ. -/
theorem total_field_requested_count (hashFn : Bytes → Bytes) (now : Int)
    (content nameBase outDir : Bytes) (chunks : Nat)
    (hC : 2 ≤ chunks) (hCub : chunks ≤ 10000) (hcontent : content ≠ [])
    (hhash : ∀ b, (hashFn b).length = 32)
    (hnow1 : -(2 ^ 63) ≤ now) (hnow2 : now < 2 ^ 63)
    (hsize : (content.length : Int) < 2 ^ 63)
    (hslash : slashB ∉ nameBase)
    (hpartD : ¬ partStr <:+: outDir) (hpartN : ¬ partStr <:+: trimExt nameBase) :
    ∃ fs, SplitFile hashFn now [] content nameBase outDir chunks = Except.ok fs ∧
      fs.length = (content.length + (content.length / chunks + 1) - 1)
        / (content.length / chunks + 1) ∧
      ∃ raw, fs.read (joinPath outDir (fragName (trimExt nameBase) 0)) = some raw ∧
        (decodeMeta raw).map metadata.Total = some (chunks % 2 ^ 32) := by
  have hslashS : slashB ∉ trimExt nameBase :=
    fun hmem => hslash (mem_of_mem_trimExt hmem)
  have hsz : 0 < content.length / chunks + 1 := Nat.succ_pos _
  have hub : (chunkify (content.length / chunks + 1) content).length ≤ 10000 := by
    rw [chunkify_length _ hsz]
    exact le_trans (chunkify_count_le content.length chunks (by omega)) hCub
  have htmp := replaceFirst_frag0 outDir (trimExt nameBase) hpartD hpartN
  have hok := splitFile_spec hashFn now content nameBase outDir chunks
    hC hcontent hslashS hub htmp
  have hWF : (splitMeta hashFn now content nameBase chunks).WF := by
    refine ⟨hhash content, Nat.mod_lt _ (by norm_num), ?_, hsize, hnow1, hnow2,
      truncPad_length _ _ _⟩
    show -(2 ^ 63 : Int) ≤ (content.length : Int)
    have h0 : (0 : Int) ≤ (content.length : Int) := Int.natCast_nonneg _
    have he : (0 : Int) ≤ 2 ^ 63 := by norm_num
    omega
  have hpos : 0 < (chunkify (content.length / chunks + 1) content).length := by
    rw [chunkify_cons (content.length / chunks + 1) content hcontent
      (Nat.succ_ne_zero _)]
    simp
  have hraw := fragmentFS_read_frag outDir (trimExt nameBase)
    (splitMeta hashFn now content nameBase chunks)
    (chunkify (content.length / chunks + 1) content) hub 0 hpos
  refine ⟨_, hok, ?_, ?_⟩
  · rw [fragmentFS_length, chunkify_length _ hsz]
  · refine ⟨_, hraw, ?_⟩
    rw [fragContent, if_pos rfl, decodeMeta_encodeMeta hWF]
    rfl

set_option maxRecDepth 8000 in
/-- Claim C4 (corrected): the fragment count is NOT `≥ C`.  Splitting 5
bytes with requested count 4 produces `ceil(5/(⌊5/4⌋+1)) = ceil(5/2) = 3`
fragment files, and `3 < 4`: the buffer size `⌊L/C⌋+1` makes the count
come out at or BELOW the requested count, never above it. -/
theorem fragment_count_lt_requested_cex :
    (SplitFile testHash 0 [] [1, 2, 3, 4, 5] [102, 46, 116] [111] 4).map
        List.length = Except.ok 3 ∧ ¬ 4 ≤ 3 := by
  constructor
  · decide
  · decide

/-- Claim C4 (amended): splitting a nonempty stream of length `L` with
requested count `C ≥ 2` uses buffer size `⌊L/C⌋+1` and writes exactly
`ceil(L / (⌊L/C⌋+1))` fragment files — the length of
`chunkify (L/C+1) content` — and this count is at most `C` (it never
exceeds the requested count; it can fall short of it). -/
theorem fragment_count_formula (hashFn : Bytes → Bytes) (now : Int)
    (content nameBase outDir : Bytes) (chunks : Nat)
    (hC : 2 ≤ chunks) (hCub : chunks ≤ 10000) (hcontent : content ≠ [])
    (hslash : slashB ∉ nameBase)
    (hpartD : ¬ partStr <:+: outDir) (hpartN : ¬ partStr <:+: trimExt nameBase) :
    ∃ fs, SplitFile hashFn now [] content nameBase outDir chunks = Except.ok fs ∧
      fs.length = (chunkify (content.length / chunks + 1) content).length ∧
      fs.length = (content.length + (content.length / chunks + 1) - 1)
        / (content.length / chunks + 1) ∧
      fs.length ≤ chunks := by
  have hslashS : slashB ∉ trimExt nameBase :=
    fun hmem => hslash (mem_of_mem_trimExt hmem)
  have hsz : 0 < content.length / chunks + 1 := Nat.succ_pos _
  have hcount : (chunkify (content.length / chunks + 1) content).length ≤ chunks := by
    rw [chunkify_length _ hsz]
    exact chunkify_count_le content.length chunks (by omega)
  have hub : (chunkify (content.length / chunks + 1) content).length ≤ 10000 := by
    omega
  have htmp := replaceFirst_frag0 outDir (trimExt nameBase) hpartD hpartN
  have hok := splitFile_spec hashFn now content nameBase outDir chunks
    hC hcontent hslashS hub htmp
  refine ⟨_, hok, ?_, ?_, ?_⟩
  · rw [fragmentFS_length]
  · rw [fragmentFS_length, chunkify_length _ hsz]
  · rw [fragmentFS_length]
    exact hcount

set_option maxRecDepth 8000 in
/-- Witness for the amended C3: 3 bytes split into 2 chunks; 2 fragment
files are written and the fragment-0 header decodes with `Total = 2`. -/
theorem total_field_requested_count_witness :
    ∃ fs, SplitFile testHash 5 [] [9, 8, 7] [110, 46, 116] [111] 2
        = Except.ok fs ∧
      fs.length = ([9, 8, 7].length + ([9, 8, 7].length / 2 + 1) - 1)
        / ([9, 8, 7].length / 2 + 1) ∧
      ∃ raw, fs.read (joinPath [111] (fragName (trimExt [110, 46, 116]) 0))
          = some raw ∧
        (decodeMeta raw).map metadata.Total = some (2 % 2 ^ 32) :=
  total_field_requested_count testHash 5 [9, 8, 7] [110, 46, 116] [111] 2
    (by decide) (by decide) (by decide) testHash_length (by decide) (by decide)
    (by decide) (by decide) (by decide) (by decide)

set_option maxRecDepth 8000 in
/-- Witness for the amended C4: 5 bytes split into 4 requested chunks
yield `ceil(5/2) = 3 ≤ 4` fragment files. -/
theorem fragment_count_formula_witness :
    ∃ fs, SplitFile testHash 0 [] [1, 2, 3, 4, 5] [103, 46, 116] [111] 4
        = Except.ok fs ∧
      fs.length
        = (chunkify ([1, 2, 3, 4, 5].length / 4 + 1) [1, 2, 3, 4, 5]).length ∧
      fs.length = ([1, 2, 3, 4, 5].length + ([1, 2, 3, 4, 5].length / 4 + 1) - 1)
        / ([1, 2, 3, 4, 5].length / 4 + 1) ∧
      fs.length ≤ 4 :=
  fragment_count_formula testHash 0 [1, 2, 3, 4, 5] [103, 46, 116] [111] 4
    (by decide) (by decide) (by decide) (by decide) (by decide) (by decide)

/-- Claim C5 (confirmed): for a metadata record whose fields fit the Go
struct's fixed widths, encoding yields exactly 98 bytes in the fixed
big-endian layout, decoding the encoded bytes (with anything appended
after them) reconstructs the record, and decoding fails when fewer than
98 bytes are available.  Determinism is immediate: `encodeMeta` is a
function of the record. -/
theorem metadata_codec_roundtrip (m : metadata) (hWF : m.WF) (rest bs : Bytes)
    (hshort : bs.length < 98) :
    (encodeMeta m).length = 98 ∧
    decodeMeta (encodeMeta m ++ rest) = some m ∧
    decodeMeta bs = none :=
  ⟨encodeMeta_length m, decodeMeta_encodeMeta hWF rest, decodeMeta_short hshort⟩

/-- Witness for C5 at a concrete record and a 3-byte truncated input. -/
theorem metadata_codec_roundtrip_witness :
    (encodeMeta metaC2).length = 98 ∧
    decodeMeta (encodeMeta metaC2 ++ [5]) = some metaC2 ∧
    decodeMeta [1, 2, 3] = none :=
  metadata_codec_roundtrip metaC2 (by decide) [5] [1, 2, 3] (by decide)

/-- Claim C6 (confirmed): discovery returns exactly the non-directory
entries whose names match `_(\d{4})\.part$` (underscore, exactly four
digits, `.part` suffix — `parseFragIdx`/`entryChunk`), sorted ascending
by parsed index, and the result is invariant under any permutation of the
raw listing (`os.ReadDir` sorts by name before `checkFiles` filters and
sorts by index). -/
theorem checkFiles_discovery (dir : Bytes) (entries : List DirEntry) :
    (checkFiles dir entries).Perm (entries.filterMap (entryChunk dir)) ∧
    (checkFiles dir entries).Sorted (fun a b => a.index ≤ b.index) ∧
    (∀ entries2, entries.Perm entries2 →
      checkFiles dir entries = checkFiles dir entries2) :=
  ⟨checkFiles_perm dir entries, checkFiles_sorted dir entries,
    fun _ h => checkFiles_perm_invariant dir h⟩

set_option maxRecDepth 8000 in
/-- Witness for C6: a listing holding fragments 1 and 0 (out of order), a
subdirectory and a `.tmp` leftover; discovery keeps exactly the two
fragments, sorted by index, and a reversed listing gives the same result. -/
theorem checkFiles_discovery_witness :
    (checkFiles [100] [⟨fragName [97] 1, false⟩, ⟨[98], true⟩,
        ⟨tmpName [97], false⟩, ⟨fragName [97] 0, false⟩]).Perm
      ([⟨fragName [97] 1, false⟩, ⟨[98], true⟩,
        ⟨tmpName [97], false⟩, ⟨fragName [97] 0, false⟩].filterMap
          (entryChunk [100])) ∧
    (checkFiles [100] [⟨fragName [97] 1, false⟩, ⟨[98], true⟩,
        ⟨tmpName [97], false⟩, ⟨fragName [97] 0, false⟩]).Sorted
      (fun a b => a.index ≤ b.index) ∧
    checkFiles [100] [⟨fragName [97] 1, false⟩, ⟨[98], true⟩,
        ⟨tmpName [97], false⟩, ⟨fragName [97] 0, false⟩]
      = checkFiles [100] [⟨fragName [97] 0, false⟩, ⟨tmpName [97], false⟩,
        ⟨[98], true⟩, ⟨fragName [97] 1, false⟩] := by
  obtain ⟨h1, h2, h3⟩ := checkFiles_discovery [100]
    [⟨fragName [97] 1, false⟩, ⟨[98], true⟩,
     ⟨tmpName [97], false⟩, ⟨fragName [97] 0, false⟩]
  exact ⟨h1, h2, h3 _ (by decide)⟩

/-- Claim C7 (corrected): a chunk count below 2 is rejected by both
`SplitFile` and `SplitData`, and `SplitData` also rejects an output slice
whose length differs from the chunk count; but `SplitFile` with chunk
count 2 does NOT succeed for every input — it fails on an empty source —
so the success half holds only for nonempty content (and a well-formed
name/directory). -/
theorem min_chunk_validation (hashFn : Bytes → Bytes) (now : Int) (fs : FS)
    (content nameBase outDir d : Bytes) (aLen chunks : Nat)
    (hlt : chunks < 2) (haLen : aLen ≠ 2)
    (hcontent : content ≠ []) (hslash : slashB ∉ nameBase)
    (hpartD : ¬ partStr <:+: outDir) (hpartN : ¬ partStr <:+: trimExt nameBase) :
    SplitFile hashFn now fs content nameBase outDir chunks
      = Except.error "chunks must be at least 2" ∧
    SplitData d aLen chunks = Except.error "chunks must be at least 2" ∧
    SplitData d aLen 2 = Except.error ("output slice length must be " ++ toString 2) ∧
    (∃ parts, SplitData d 2 2 = Except.ok parts) ∧
    (∃ fs2, SplitFile hashFn now [] content nameBase outDir 2 = Except.ok fs2) := by
  refine ⟨?_, ?_, ?_, ⟨_, SplitData_ok d 2 (le_refl 2)⟩, ?_⟩
  · rw [SplitFile, if_pos hlt]
  · rw [SplitData, if_pos hlt]
  · rw [SplitData, if_neg (by omega), if_pos haLen]
  · have hslashS : slashB ∉ trimExt nameBase :=
      fun hmem => hslash (mem_of_mem_trimExt hmem)
    have hsz : 0 < content.length / 2 + 1 := Nat.succ_pos _
    have hub : (chunkify (content.length / 2 + 1) content).length ≤ 10000 := by
      rw [chunkify_length _ hsz]
      exact le_trans (chunkify_count_le content.length 2 (by omega)) (by omega)
    exact ⟨_, splitFile_spec hashFn now content nameBase outDir 2 (le_refl 2)
      hcontent hslashS hub (replaceFirst_frag0 outDir (trimExt nameBase)
        hpartD hpartN)⟩

set_option maxRecDepth 8000 in
/-- Counterexample for C7's success half as frozen: with chunk count 2 and
an empty file, the split fails (no chunk is written and `injectMetadata`
cannot open the empty temporary path). -/
theorem splitFile_two_chunks_empty_source_cex :
    SplitFile testHash 0 [] [] [98, 46, 116] [100] 2
      = Except.error "failed to open source chunk file" := by
  rfl

set_option maxRecDepth 8000 in
/-- Witness for the amended C7 at concrete inputs: chunk count 1 and a
wrong output-slice length are rejected; 2 succeeds on a 2-byte file. -/
theorem min_chunk_validation_witness :
    SplitFile testHash 0 [] [4, 5] [109, 46, 116] [111] 1
      = Except.error "chunks must be at least 2" ∧
    SplitData [1, 2, 3] 3 1 = Except.error "chunks must be at least 2" ∧
    SplitData [1, 2, 3] 3 2
      = Except.error ("output slice length must be " ++ toString 2) ∧
    (∃ parts, SplitData [1, 2, 3] 2 2 = Except.ok parts) ∧
    (∃ fs2, SplitFile testHash 0 [] [4, 5] [109, 46, 116] [111] 2
      = Except.ok fs2) :=
  min_chunk_validation testHash 0 [] [4, 5] [109, 46, 116] [111] [1, 2, 3] 3 1
    (by decide) (by decide) (by decide) (by decide) (by decide) (by decide)

/-- Claim C8 (confirmed): for a buffer of length `len` split into
`chunks ≥ 2` ranges, the part size is `⌊len/chunks⌋` raised to 1 when the
buffer is nonempty and smaller than the chunk count (`partSizeOf`); every
range before the last has that size when it fits, the last range absorbs
the remainder, ranges starting past the data are empty, and joining the
ranges in order (`MergeData` on a nonempty buffer) reproduces the
original bytes. -/
theorem splitData_partition_roundtrip (d : Bytes) (chunks : Nat)
    (h2 : 2 ≤ chunks) :
    ∃ parts, SplitData d chunks chunks = Except.ok parts ∧
      parts.length = chunks ∧
      (∀ i, i < chunks → d.length ≤ i * partSizeOf d.length chunks →
        parts.getD i [] = []) ∧
      (∀ i, i + 1 < chunks → (i + 1) * partSizeOf d.length chunks ≤ d.length →
        (parts.getD i []).length = partSizeOf d.length chunks) ∧
      parts.getD (chunks - 1) []
        = d.drop ((chunks - 1) * partSizeOf d.length chunks) ∧
      parts.flatten = d ∧
      (0 < d.length → MergeData parts = Except.ok d) := by
  have hget : ∀ i, i < chunks →
      ((List.range chunks).map (splitSeg d chunks)).getD i []
        = splitSeg d chunks i := by
    intro i hi
    rw [List.getD_eq_getElem?_getD, List.getElem?_map, List.getElem?_range hi]
    rfl
  have hflat := splitSeg_flatten d chunks (by omega)
  refine ⟨(List.range chunks).map (splitSeg d chunks), SplitData_ok d chunks h2,
    by simp, ?_, ?_, ?_, hflat, ?_⟩
  · intro i hi hle
    rw [hget i hi]
    exact splitSeg_beyond d chunks i hle
  · intro i hi hle
    rw [hget i (by omega)]
    exact splitSeg_middle d chunks i hi hle
  · rw [hget (chunks - 1) (by omega)]
    exact splitSeg_last d chunks
  · intro hd
    rw [MergeData, if_neg (by simp; omega)]
    rw [hflat, if_neg (by omega)]

/-- Witness for C8: the spec's own instance — a 7-byte buffer split into 3
ranges gives sizes `{2,2,3}`, and joining them restores the buffer. -/
theorem splitData_partition_witness :
    SplitData [1, 2, 3, 4, 5, 6, 7] 3 3
      = Except.ok [[1, 2], [3, 4], [5, 6, 7]] ∧
    (∃ parts, SplitData [1, 2, 3, 4, 5, 6, 7] 3 3 = Except.ok parts ∧
      parts.flatten = [1, 2, 3, 4, 5, 6, 7] ∧
      MergeData parts = Except.ok [1, 2, 3, 4, 5, 6, 7]) := by
  constructor
  · decide
  · obtain ⟨parts, h1, _, _, _, _, h6, h7⟩ :=
      splitData_partition_roundtrip [1, 2, 3, 4, 5, 6, 7] 3 (by decide)
    exact ⟨parts, h1, h6, h7 (by decide)⟩

/-- Claim C9 (confirmed): two complete fragment layouts whose headers
agree on Hash and Name — and whose fragment data agree — merge to the
same outcome and the same reconstructed bytes, whatever their Total, Size
and Time fields hold: `MergeFile` reads only `meta.Name` (line 169) and
`meta.Hash` (line 215) after decoding, so a Total inconsistent with the
number of fragments present is never detected. -/
theorem mergeFile_ignores_total_size_time (hashFn : Bytes → Bytes)
    (outDir stem : Bytes) (m1 m2 : metadata) (pieces : List Bytes)
    (hstem : slashB ∉ stem) (h0 : pieces ≠ []) (hub : pieces.length ≤ 10000)
    (hWF1 : m1.WF) (hWF2 : m2.WF)
    (hHash : m1.Hash = m2.Hash) (hName : m1.Name = m2.Name)
    (hout : ∀ i, i < pieces.length → fragName stem i ≠ trimByte 0 m1.Name) :
    (MergeFile hashFn (fragmentFS outDir stem m1 pieces) outDir).2
      = (MergeFile hashFn (fragmentFS outDir stem m2 pieces) outDir).2 ∧
    (MergeFile hashFn (fragmentFS outDir stem m1 pieces) outDir).1.read
        (joinPath outDir (trimByte 0 m1.Name))
      = (MergeFile hashFn (fragmentFS outDir stem m2 pieces) outDir).1.read
        (joinPath outDir (trimByte 0 m2.Name)) := by
  have hout2 : ∀ i, i < pieces.length → fragName stem i ≠ trimByte 0 m2.Name := by
    intro i hi
    rw [← hName]
    exact hout i hi
  obtain ⟨ha1, ha2, _, _⟩ :=
    mergeFile_fragmentFS hashFn outDir stem m1 pieces hstem h0 hub hWF1 hout
  obtain ⟨hb1, hb2, _, _⟩ :=
    mergeFile_fragmentFS hashFn outDir stem m2 pieces hstem h0 hub hWF2 hout2
  constructor
  · rw [ha1, hb1, hHash]
  · rw [ha2, hb2]

set_option maxRecDepth 8000 in
/-- Witness for C9: the fixtures `metaC2` and `metaC9` differ in Total,
Size and Time only; merging the two layouts gives identical outcomes and
identical reconstructed bytes. -/
theorem mergeFile_ignores_total_size_time_witness :
    (MergeFile testHash (fragmentFS [111] [97] metaC2 [[1], [2]]) [111]).2
      = (MergeFile testHash (fragmentFS [111] [97] metaC9 [[1], [2]]) [111]).2 ∧
    (MergeFile testHash (fragmentFS [111] [97] metaC2 [[1], [2]]) [111]).1.read
        (joinPath [111] (trimByte 0 metaC2.Name))
      = (MergeFile testHash (fragmentFS [111] [97] metaC9 [[1], [2]]) [111]).1.read
        (joinPath [111] (trimByte 0 metaC9.Name)) :=
  mergeFile_ignores_total_size_time testHash [111] [97] metaC2 metaC9 [[1], [2]]
    (by decide) (by decide) (by decide) (by decide) (by decide) (by decide)
    (by decide) (by decide)

/-- Claim C10 (confirmed): the temporary path of fragment 0 is the joined
output path with the first occurrence of `"part"` replaced by `"tmp"`
(line 104); when neither the output directory nor the stem contains
`"part"` the replacement lands on the `.part` extension, giving
`<stem>_0000.tmp`, and `injectMetadata`'s destination — the temporary
path with its extension replaced by `.part` (lines 354-357) — is
`<stem>_0000.part`; the replacement equals that clean temporary name
exactly when neither the directory nor the stem contains `"part"`. -/
theorem tmp_name_derivation (outDir stem : Bytes) (hstem : slashB ∉ stem) :
    chunkPath outDir stem 0
      = replaceFirst partStr tmpStr (joinPath outDir (fragName stem 0)) ∧
    ((¬ partStr <:+: outDir ∧ ¬ partStr <:+: stem) →
      chunkPath outDir stem 0 = joinPath outDir (tmpName stem) ∧
      joinPath (dirOf (chunkPath outDir stem 0))
          (trimExt (baseOf (chunkPath outDir stem 0)) ++ dotPartStr)
        = joinPath outDir (fragName stem 0)) ∧
    (replaceFirst partStr tmpStr (joinPath outDir (fragName stem 0))
        = joinPath outDir (tmpName stem)
      ↔ ¬ partStr <:+: outDir ∧ ¬ partStr <:+: stem) := by
  have hc0 : chunkPath outDir stem 0
      = replaceFirst partStr tmpStr (joinPath outDir (fragName stem 0)) := by
    rw [chunkPath, if_pos rfl]
  refine ⟨hc0, ?_, ?_⟩
  · rintro ⟨hpD, hpS⟩
    have hcp : chunkPath outDir stem 0 = joinPath outDir (tmpName stem) := by
      rw [hc0]
      exact replaceFirst_frag0 outDir stem hpD hpS
    refine ⟨hcp, ?_⟩
    rw [hcp, dirOf_join outDir (tmpName stem) (slash_not_mem_tmpName hstem),
        baseOf_join outDir (tmpName stem) (slash_not_mem_tmpName hstem)]
    have htrim : trimExt (tmpName stem) = stem ++ 95 :: pad4 0 := by
      rw [show tmpName stem = (stem ++ 95 :: pad4 0) ++ dotB :: tmpStr from rfl]
      exact trimExt_append_dot (by decide)
    rw [htrim]
    have hfrag0 : (stem ++ 95 :: pad4 0) ++ dotPartStr = fragName stem 0 := by
      rw [fragName]
      simp [List.append_assoc]
    rw [hfrag0]
  · constructor
    · intro heq
      constructor
      · intro hpD
        exact replaceFirst_frag0_ne outDir stem (Or.inl hpD) heq
      · intro hpS
        exact replaceFirst_frag0_ne outDir stem (Or.inr hpS) heq
    · rintro ⟨hpD, hpS⟩
      exact replaceFirst_frag0 outDir stem hpD hpS

/-- Witness for C10 at a `"part"`-free directory `o` and stem `a`: the
first chunk is written as `o/a_0000.tmp` and finalised as
`o/a_0000.part`. -/
theorem tmp_name_derivation_witness :
    chunkPath [111] [97] 0
      = replaceFirst partStr tmpStr (joinPath [111] (fragName [97] 0)) ∧
    ((¬ partStr <:+: ([111] : Bytes) ∧ ¬ partStr <:+: ([97] : Bytes)) →
      chunkPath [111] [97] 0 = joinPath [111] (tmpName [97]) ∧
      joinPath (dirOf (chunkPath [111] [97] 0))
          (trimExt (baseOf (chunkPath [111] [97] 0)) ++ dotPartStr)
        = joinPath [111] (fragName [97] 0)) ∧
    (replaceFirst partStr tmpStr (joinPath [111] (fragName [97] 0))
        = joinPath [111] (tmpName [97])
      ↔ ¬ partStr <:+: ([111] : Bytes) ∧ ¬ partStr <:+: ([97] : Bytes)) :=
  tmp_name_derivation [111] [97] (by decide)
